import Mathlib

/-!
Verification of the `northbright/hasher` resumable multi-digest engine.

This file gives a shallow embedding, in Lean 4, of the Go package `hasher`
(two generations of it are present in the repository):

* `hasher.go` — the iocopy-based generation: constructors `newHasher` /
  `newHasherWithStates`, state export `States`, `Checksums`, `Match`;
* `part_001` (file name unknown) — the self-contained channel engine:
  `GetHashByName`, `getHashesAndWriter`, `loadStates`, `outputStates`,
  `Hasher.Start`.

Both generations delegate the actual digest computation to the Go standard
library (`crypto/md5`, `crypto/sha1`, `crypto/sha256`, `crypto/sha512`,
`hash/crc32`), including the binary state snapshots
(`encoding.BinaryMarshaler` / `encoding.BinaryUnmarshaler`).  Those digest
implementations are therefore embedded here as well: machine words are
`Nat` with explicit reduction `% 2^32` / `% 2^64`, byte strings are
`List Nat` whose entries are below 256, and the Go marshal formats
(magic string, big-endian chaining values, partial block, length) are
reproduced byte for byte.

Go `map[string]T` values are modelled as association lists
(`List (String × T)`) with overwriting insertion (`mapSet`) and lookup
(`lookupL`); a fixed iteration order stands in for Go's randomized map
order (every statement proved below is insensitive to that order, and the
one place where the order picks a concrete error value is flagged in a
comment).
-/

namespace HasherProof

/-- Decidable equality of `Except` results, used to state and evaluate
concrete runs of the fallible operations below. -/
instance {ε α : Type} [DecidableEq ε] [DecidableEq α] :
    DecidableEq (Except ε α) := fun x y =>
  match x, y with
  | .ok a, .ok b =>
      if h : a = b then .isTrue (by rw [h]) else .isFalse (by simp [h])
  | .error a, .error b =>
      if h : a = b then .isTrue (by rw [h]) else .isFalse (by simp [h])
  | .ok _, .error _ => .isFalse (by simp)
  | .error _, .ok _ => .isFalse (by simp)

/-! ## Byte-level serialization helpers

`toBytesBE k n` is the `k`-byte big-endian encoding of `n % 256^k`
(Go `binary.BigEndian.PutUint32/64`, `appendUint32/64`);
`toBytesLE` the little-endian one; `fromBytesBE` decodes
(Go `binary.BigEndian.Uint32/64`, the `consumeUint32/64` helpers). -/

def toBytesBE : Nat → Nat → List Nat
  | 0, _ => []
  | k + 1, n => toBytesBE k (n / 256) ++ [n % 256]

def toBytesLE : Nat → Nat → List Nat
  | 0, _ => []
  | k + 1, n => n % 256 :: toBytesLE k (n / 256)

def fromBytesBE (l : List Nat) : Nat :=
  l.foldl (fun acc b => acc * 256 + b) 0

@[simp] theorem length_toBytesBE (k n : Nat) : (toBytesBE k n).length = k := by
  induction k generalizing n with
  | zero => rfl
  | succ k ih => simp [toBytesBE, ih]

@[simp] theorem length_toBytesLE (k n : Nat) : (toBytesLE k n).length = k := by
  induction k generalizing n with
  | zero => rfl
  | succ k ih => simp [toBytesLE, ih]

theorem fromBytesBE_append_singleton (l : List Nat) (b : Nat) :
    fromBytesBE (l ++ [b]) = fromBytesBE l * 256 + b := by
  simp [fromBytesBE, List.foldl_append]

theorem fromBytesBE_toBytesBE (k n : Nat) :
    fromBytesBE (toBytesBE k n) = n % 256 ^ k := by
  induction k generalizing n with
  | zero => simp [toBytesBE, fromBytesBE, Nat.mod_one]
  | succ k ih =>
      rw [toBytesBE, fromBytesBE_append_singleton, ih]
      have h1 : n / 256 % 256 ^ k = n % (256 * 256 ^ k) / 256 :=
        (Nat.mod_mul_right_div_self n 256 (256 ^ k)).symm
      have h2 : n % 256 = n % (256 * 256 ^ k) % 256 := by
        rw [Nat.mod_mod_of_dvd _ ⟨256 ^ k, rfl⟩]
      rw [h1, h2, pow_succ, mul_comm (256 ^ k) 256,
        mul_comm (n % (256 * 256 ^ k) / 256) 256]
      exact Nat.div_add_mod _ 256

theorem toBytesBE_mem_lt (k n : Nat) : ∀ b ∈ toBytesBE k n, b < 256 := by
  induction k generalizing n with
  | zero => simp [toBytesBE]
  | succ k ih =>
      intro b hb
      rw [toBytesBE] at hb
      rcases List.mem_append.1 hb with h | h
      · exact ih _ b h
      · simp at h; omega

/-! ## 32/64-bit word operations (on `Nat`, reduced mod `2^w`)

These coincide with Go's `uint32`/`uint64` operations whenever the
arguments are below `2^w`, which is an invariant of every state reachable
through the API (see `WFState` below). -/

def rotl (w n x : Nat) : Nat := ((x <<< n) ||| (x >>> (w - n))) % 2 ^ w

def rotr (w n x : Nat) : Nat := ((x >>> n) ||| (x <<< (w - n))) % 2 ^ w

def not32 (x : Nat) : Nat := x ^^^ 0xFFFFFFFF

def not64 (x : Nat) : Nat := x ^^^ 0xFFFFFFFFFFFFFFFF

/-- Little-endian 32-bit word number `i` of a block (Go `crypto/md5`). -/
def word32le (blk : List Nat) (i : Nat) : Nat :=
  blk.getD (4 * i) 0 + 256 * blk.getD (4 * i + 1) 0 +
    65536 * blk.getD (4 * i + 2) 0 + 16777216 * blk.getD (4 * i + 3) 0

/-- Big-endian 32-bit word number `i` of a block (Go sha1/sha256). -/
def word32be (blk : List Nat) (i : Nat) : Nat :=
  fromBytesBE [blk.getD (4 * i) 0, blk.getD (4 * i + 1) 0,
    blk.getD (4 * i + 2) 0, blk.getD (4 * i + 3) 0]

/-- Big-endian 64-bit word number `i` of a block (Go sha512). -/
def word64be (blk : List Nat) (i : Nat) : Nat :=
  fromBytesBE ((List.range 8).map (fun j => blk.getD (8 * i + j) 0))

/-! ## Constant tables of the digest algorithms

Transcribed from the Go standard library sources relied on by the
repository (`crypto/md5`, `crypto/sha1`, `crypto/sha256`,
`crypto/sha512`, `hash/crc32`). -/

def md5IV : List Nat := [0x67452301, 0xEFCDAB89, 0x98BADCFE, 0x10325476]

def sha1IV : List Nat :=
  [0x67452301, 0xEFCDAB89, 0x98BADCFE, 0x10325476, 0xC3D2E1F0]

/-- MD5 per-round left-rotation amounts. -/
def md5S : List Nat := [
  7, 12, 17, 22, 7, 12, 17, 22, 7, 12, 17, 22, 7, 12, 17, 22,
  5, 9, 14, 20, 5, 9, 14, 20, 5, 9, 14, 20, 5, 9, 14, 20,
  4, 11, 16, 23, 4, 11, 16, 23, 4, 11, 16, 23, 4, 11, 16, 23,
  6, 10, 15, 21, 6, 10, 15, 21, 6, 10, 15, 21, 6, 10, 15, 21]

def md5K : List Nat := [
  0xD76AA478, 0xE8C7B756, 0x242070DB, 0xC1BDCEEE,
  0xF57C0FAF, 0x4787C62A, 0xA8304613, 0xFD469501,
  0x698098D8, 0x8B44F7AF, 0xFFFF5BB1, 0x895CD7BE,
  0x6B901122, 0xFD987193, 0xA679438E, 0x49B40821,
  0xF61E2562, 0xC040B340, 0x265E5A51, 0xE9B6C7AA,
  0xD62F105D, 0x2441453, 0xD8A1E681, 0xE7D3FBC8,
  0x21E1CDE6, 0xC33707D6, 0xF4D50D87, 0x455A14ED,
  0xA9E3E905, 0xFCEFA3F8, 0x676F02D9, 0x8D2A4C8A,
  0xFFFA3942, 0x8771F681, 0x6D9D6122, 0xFDE5380C,
  0xA4BEEA44, 0x4BDECFA9, 0xF6BB4B60, 0xBEBFBC70,
  0x289B7EC6, 0xEAA127FA, 0xD4EF3085, 0x4881D05,
  0xD9D4D039, 0xE6DB99E5, 0x1FA27CF8, 0xC4AC5665,
  0xF4292244, 0x432AFF97, 0xAB9423A7, 0xFC93A039,
  0x655B59C3, 0x8F0CCC92, 0xFFEFF47D, 0x85845DD1,
  0x6FA87E4F, 0xFE2CE6E0, 0xA3014314, 0x4E0811A1,
  0xF7537E82, 0xBD3AF235, 0x2AD7D2BB, 0xEB86D391]

def sha256IV : List Nat := [
  0x6A09E667, 0xBB67AE85, 0x3C6EF372, 0xA54FF53A,
  0x510E527F, 0x9B05688C, 0x1F83D9AB, 0x5BE0CD19]

def sha256K : List Nat := [
  0x428A2F98, 0x71374491, 0xB5C0FBCF, 0xE9B5DBA5,
  0x3956C25B, 0x59F111F1, 0x923F82A4, 0xAB1C5ED5,
  0xD807AA98, 0x12835B01, 0x243185BE, 0x550C7DC3,
  0x72BE5D74, 0x80DEB1FE, 0x9BDC06A7, 0xC19BF174,
  0xE49B69C1, 0xEFBE4786, 0xFC19DC6, 0x240CA1CC,
  0x2DE92C6F, 0x4A7484AA, 0x5CB0A9DC, 0x76F988DA,
  0x983E5152, 0xA831C66D, 0xB00327C8, 0xBF597FC7,
  0xC6E00BF3, 0xD5A79147, 0x6CA6351, 0x14292967,
  0x27B70A85, 0x2E1B2138, 0x4D2C6DFC, 0x53380D13,
  0x650A7354, 0x766A0ABB, 0x81C2C92E, 0x92722C85,
  0xA2BFE8A1, 0xA81A664B, 0xC24B8B70, 0xC76C51A3,
  0xD192E819, 0xD6990624, 0xF40E3585, 0x106AA070,
  0x19A4C116, 0x1E376C08, 0x2748774C, 0x34B0BCB5,
  0x391C0CB3, 0x4ED8AA4A, 0x5B9CCA4F, 0x682E6FF3,
  0x748F82EE, 0x78A5636F, 0x84C87814, 0x8CC70208,
  0x90BEFFFA, 0xA4506CEB, 0xBEF9A3F7, 0xC67178F2]

def sha512IV : List Nat := [
  0x6A09E667F3BCC908, 0xBB67AE8584CAA73B, 0x3C6EF372FE94F82B, 0xA54FF53A5F1D36F1,
  0x510E527FADE682D1, 0x9B05688C2B3E6C1F, 0x1F83D9ABFB41BD6B, 0x5BE0CD19137E2179]

def sha512K : List Nat := [
  0x428A2F98D728AE22, 0x7137449123EF65CD, 0xB5C0FBCFEC4D3B2F, 0xE9B5DBA58189DBBC,
  0x3956C25BF348B538, 0x59F111F1B605D019, 0x923F82A4AF194F9B, 0xAB1C5ED5DA6D8118,
  0xD807AA98A3030242, 0x12835B0145706FBE, 0x243185BE4EE4B28C, 0x550C7DC3D5FFB4E2,
  0x72BE5D74F27B896F, 0x80DEB1FE3B1696B1, 0x9BDC06A725C71235, 0xC19BF174CF692694,
  0xE49B69C19EF14AD2, 0xEFBE4786384F25E3, 0xFC19DC68B8CD5B5, 0x240CA1CC77AC9C65,
  0x2DE92C6F592B0275, 0x4A7484AA6EA6E483, 0x5CB0A9DCBD41FBD4, 0x76F988DA831153B5,
  0x983E5152EE66DFAB, 0xA831C66D2DB43210, 0xB00327C898FB213F, 0xBF597FC7BEEF0EE4,
  0xC6E00BF33DA88FC2, 0xD5A79147930AA725, 0x6CA6351E003826F, 0x142929670A0E6E70,
  0x27B70A8546D22FFC, 0x2E1B21385C26C926, 0x4D2C6DFC5AC42AED, 0x53380D139D95B3DF,
  0x650A73548BAF63DE, 0x766A0ABB3C77B2A8, 0x81C2C92E47EDAEE6, 0x92722C851482353B,
  0xA2BFE8A14CF10364, 0xA81A664BBC423001, 0xC24B8B70D0F89791, 0xC76C51A30654BE30,
  0xD192E819D6EF5218, 0xD69906245565A910, 0xF40E35855771202A, 0x106AA07032BBD1B8,
  0x19A4C116B8D2D0C8, 0x1E376C085141AB53, 0x2748774CDF8EEB99, 0x34B0BCB5E19B48A8,
  0x391C0CB3C5C95A63, 0x4ED8AA4AE3418ACB, 0x5B9CCA4F7763E373, 0x682E6FF3D6B2B8A3,
  0x748F82EE5DEFB2FC, 0x78A5636F43172F60, 0x84C87814A1F0AB72, 0x8CC702081A6439EC,
  0x90BEFFFA23631E28, 0xA4506CEBDE82BDE9, 0xBEF9A3F7B2C67915, 0xC67178F2E372532B,
  0xCA273ECEEA26619C, 0xD186B8C721C0C207, 0xEADA7DD6CDE0EB1E, 0xF57D4F7FEE6ED178,
  0x6F067AA72176FBA, 0xA637DC5A2C898A6, 0x113F9804BEF90DAE, 0x1B710B35131C471B,
  0x28DB77F523047D84, 0x32CAAB7B40C72493, 0x3C9EBE0A15C9BEBC, 0x431D67C49C100D4C,
  0x4CC5D4BECB3E42B6, 0x597F299CFC657E2A, 0x5FCB6FAB3AD6FAEC, 0x6C44198C4A475817]

/-! ## MD5 block function (Go `crypto/md5` `blockGeneric`) -/

def md5Round (x : Nat → Nat) (st : Nat × Nat × Nat × Nat) (i : Nat) :
    Nat × Nat × Nat × Nat :=
  let (a, b, c, d) := st
  let f :=
    if i < 16 then (b &&& c) ||| (not32 b &&& d)
    else if i < 32 then (d &&& b) ||| (not32 d &&& c)
    else if i < 48 then b ^^^ c ^^^ d
    else c ^^^ (b ||| not32 d)
  let g :=
    if i < 16 then i
    else if i < 32 then (5 * i + 1) % 16
    else if i < 48 then (3 * i + 5) % 16
    else 7 * i % 16
  let t := (f + a + md5K.getD i 0 + x g) % 2 ^ 32
  (d, (b + rotl 32 (md5S.getD i 0) t) % 2 ^ 32, b, c)

def md5Block (h blk : List Nat) : List Nat :=
  match h with
  | [a0, b0, c0, d0] =>
      let p := (List.range 64).foldl (md5Round (word32le blk)) (a0, b0, c0, d0)
      [(a0 + p.1) % 2 ^ 32, (b0 + p.2.1) % 2 ^ 32,
        (c0 + p.2.2.1) % 2 ^ 32, (d0 + p.2.2.2) % 2 ^ 32]
  | _ => h

/-! ## SHA-1 block function (Go `crypto/sha1` `blockGeneric`) -/

def sha1W (blk : List Nat) : List Nat :=
  (List.range 80).foldl
    (fun w i =>
      w ++ [if i < 16 then word32be blk i
            else rotl 32 1 (w.getD (i - 3) 0 ^^^ w.getD (i - 8) 0 ^^^
              w.getD (i - 14) 0 ^^^ w.getD (i - 16) 0)]) []

def sha1Round (w : List Nat) (st : Nat × Nat × Nat × Nat × Nat) (i : Nat) :
    Nat × Nat × Nat × Nat × Nat :=
  let (a, b, c, d, e) := st
  let f :=
    if i < 20 then (b &&& c) ||| (not32 b &&& d)
    else if i < 40 then b ^^^ c ^^^ d
    else if i < 60 then (b &&& c) ||| (b &&& d) ||| (c &&& d)
    else b ^^^ c ^^^ d
  let k :=
    if i < 20 then 0x5A827999
    else if i < 40 then 0x6ED9EBA1
    else if i < 60 then 0x8F1BBCDC
    else 0xCA62C1D6
  let tmp := (rotl 32 5 a + f + e + k + w.getD i 0) % 2 ^ 32
  (tmp, a, rotl 32 30 b, c, d)

def sha1Block (h blk : List Nat) : List Nat :=
  match h with
  | [h0, h1, h2, h3, h4] =>
      let p := (List.range 80).foldl (sha1Round (sha1W blk)) (h0, h1, h2, h3, h4)
      [(h0 + p.1) % 2 ^ 32, (h1 + p.2.1) % 2 ^ 32, (h2 + p.2.2.1) % 2 ^ 32,
        (h3 + p.2.2.2.1) % 2 ^ 32, (h4 + p.2.2.2.2) % 2 ^ 32]
  | _ => h

/-! ## SHA-256 block function (Go `crypto/sha256` `blockGeneric`) -/

def sha256W (blk : List Nat) : List Nat :=
  (List.range 64).foldl
    (fun w i =>
      w ++ [if i < 16 then word32be blk i
            else
              let w15 := w.getD (i - 15) 0
              let w2 := w.getD (i - 2) 0
              let s0 := rotr 32 7 w15 ^^^ rotr 32 18 w15 ^^^ (w15 >>> 3)
              let s1 := rotr 32 17 w2 ^^^ rotr 32 19 w2 ^^^ (w2 >>> 10)
              (w.getD (i - 16) 0 + s0 + w.getD (i - 7) 0 + s1) % 2 ^ 32]) []

def sha256Round (w : List Nat)
    (st : Nat × Nat × Nat × Nat × Nat × Nat × Nat × Nat) (i : Nat) :
    Nat × Nat × Nat × Nat × Nat × Nat × Nat × Nat :=
  let (a, b, c, d, e, f, g, hh) := st
  let s1 := rotr 32 6 e ^^^ rotr 32 11 e ^^^ rotr 32 25 e
  let ch := (e &&& f) ^^^ (not32 e &&& g)
  let t1 := (hh + s1 + ch + sha256K.getD i 0 + w.getD i 0) % 2 ^ 32
  let s0 := rotr 32 2 a ^^^ rotr 32 13 a ^^^ rotr 32 22 a
  let maj := (a &&& b) ^^^ (a &&& c) ^^^ (b &&& c)
  let t2 := (s0 + maj) % 2 ^ 32
  ((t1 + t2) % 2 ^ 32, a, b, c, (d + t1) % 2 ^ 32, e, f, g)

def sha256Block (h blk : List Nat) : List Nat :=
  match h with
  | [h0, h1, h2, h3, h4, h5, h6, h7] =>
      let p := (List.range 64).foldl (sha256Round (sha256W blk))
        (h0, h1, h2, h3, h4, h5, h6, h7)
      [(h0 + p.1) % 2 ^ 32, (h1 + p.2.1) % 2 ^ 32, (h2 + p.2.2.1) % 2 ^ 32,
        (h3 + p.2.2.2.1) % 2 ^ 32, (h4 + p.2.2.2.2.1) % 2 ^ 32,
        (h5 + p.2.2.2.2.2.1) % 2 ^ 32, (h6 + p.2.2.2.2.2.2.1) % 2 ^ 32,
        (h7 + p.2.2.2.2.2.2.2) % 2 ^ 32]
  | _ => h

/-! ## SHA-512 block function (Go `crypto/sha512` `blockGeneric`) -/

def sha512W (blk : List Nat) : List Nat :=
  (List.range 80).foldl
    (fun w i =>
      w ++ [if i < 16 then word64be blk i
            else
              let w15 := w.getD (i - 15) 0
              let w2 := w.getD (i - 2) 0
              let s0 := rotr 64 1 w15 ^^^ rotr 64 8 w15 ^^^ (w15 >>> 7)
              let s1 := rotr 64 19 w2 ^^^ rotr 64 61 w2 ^^^ (w2 >>> 6)
              (w.getD (i - 16) 0 + s0 + w.getD (i - 7) 0 + s1) % 2 ^ 64]) []

def sha512Round (w : List Nat)
    (st : Nat × Nat × Nat × Nat × Nat × Nat × Nat × Nat) (i : Nat) :
    Nat × Nat × Nat × Nat × Nat × Nat × Nat × Nat :=
  let (a, b, c, d, e, f, g, hh) := st
  let s1 := rotr 64 14 e ^^^ rotr 64 18 e ^^^ rotr 64 41 e
  let ch := (e &&& f) ^^^ (not64 e &&& g)
  let t1 := (hh + s1 + ch + sha512K.getD i 0 + w.getD i 0) % 2 ^ 64
  let s0 := rotr 64 28 a ^^^ rotr 64 34 a ^^^ rotr 64 39 a
  let maj := (a &&& b) ^^^ (a &&& c) ^^^ (b &&& c)
  let t2 := (s0 + maj) % 2 ^ 64
  ((t1 + t2) % 2 ^ 64, a, b, c, (d + t1) % 2 ^ 64, e, f, g)

def sha512Block (h blk : List Nat) : List Nat :=
  match h with
  | [h0, h1, h2, h3, h4, h5, h6, h7] =>
      let p := (List.range 80).foldl (sha512Round (sha512W blk))
        (h0, h1, h2, h3, h4, h5, h6, h7)
      [(h0 + p.1) % 2 ^ 64, (h1 + p.2.1) % 2 ^ 64, (h2 + p.2.2.1) % 2 ^ 64,
        (h3 + p.2.2.2.1) % 2 ^ 64, (h4 + p.2.2.2.2.1) % 2 ^ 64,
        (h5 + p.2.2.2.2.2.1) % 2 ^ 64, (h6 + p.2.2.2.2.2.2.1) % 2 ^ 64,
        (h7 + p.2.2.2.2.2.2.2) % 2 ^ 64]
  | _ => h

/-! ## CRC-32 (Go `hash/crc32`, IEEE polynomial, `simpleUpdate` semantics) -/

def crcPoly : Nat := 0xEDB88320

def crcBitStep (c : Nat) : Nat :=
  if c % 2 = 1 then (c >>> 1) ^^^ crcPoly else c >>> 1

/-- Entry `i` of `crc32.IEEETable` (Go `simpleMakeTable`). -/
def crcTableEntry (i : Nat) : Nat :=
  crcBitStep (crcBitStep (crcBitStep (crcBitStep
    (crcBitStep (crcBitStep (crcBitStep (crcBitStep i)))))))

/-- One byte of Go `crc32.simpleUpdate`'s loop body. -/
def crcUpdateByte (c b : Nat) : Nat :=
  crcTableEntry ((c ^^^ b) % 256) ^^^ (c >>> 8)

/-- Go `crc32.simpleUpdate` (equivalently `crc32.Update` for the IEEE
table): invert, fold the table step over the bytes, invert back. -/
def crcUpdate (crc : Nat) (p : List Nat) : Nat :=
  not32 (p.foldl crcUpdateByte (not32 crc))

/-- Go `crc32.tableSum(IEEETable)`: the IEEE CRC-32 of the 1024 bytes of
the table, entries serialized big-endian.  Written into every marshaled
CRC-32 state and checked on unmarshal. -/
def crcIEEETableSum : Nat :=
  crcUpdate 0 (((List.range 256).map (fun i => toBytesBE 4 (crcTableEntry i))).flatten)

/-! ## Accumulators: unified state for the five digest implementations -/

inductive Alg
  | md5 | sha1 | sha256 | sha512 | crc32
  deriving DecidableEq, Repr

structure HashState where
  alg : Alg
  h : List Nat
  x : List Nat
  len : Nat
  deriving DecidableEq, Repr

def blockSizeOf : Alg → Nat
  | .sha512 => 128
  | _ => 64          -- unused for crc32, which keeps no buffer

def wordBytesOf : Alg → Nat
  | .sha512 => 8
  | _ => 4

def wordCountOf : Alg → Nat
  | .md5 => 4
  | .sha1 => 5
  | _ => 8           -- unused for crc32

def blockOf : Alg → List Nat → List Nat → List Nat
  | .md5 => md5Block
  | .sha1 => sha1Block
  | .sha256 => sha256Block
  | .sha512 => sha512Block
  | .crc32 => fun h _ => h   -- unused

def ivOf : Alg → List Nat
  | .md5 => md5IV
  | .sha1 => sha1IV
  | .sha256 => sha256IV
  | .sha512 => sha512IV
  | .crc32 => [0]

/-- Go `md5.New`, `sha1.New`, `sha256.New`, `sha512.New`, `crc32.NewIEEE`:
a fresh accumulator. -/
def newHashState (a : Alg) : HashState := ⟨a, ivOf a, [], 0⟩

/-- One byte through the Merkle–Damgård buffer: append to the partial
block, bump the (wrapping `uint64`) byte count, compress when a full
block accumulates.  This is Go's `digest.Write` restated byte at a time;
Go's batched slice copies are an optimization with identical semantics. -/
def mdStep (s : HashState) (b : Nat) : HashState :=
  let x := s.x ++ [b]
  let len := (s.len + 1) % 2 ^ 64
  if x.length = blockSizeOf s.alg then ⟨s.alg, blockOf s.alg s.h x, [], len⟩
  else ⟨s.alg, s.h, x, len⟩

/-- Go `digest.Write` (resp. `crc32.digest.Write`, which keeps no buffer
and no byte count — its whole state is the running crc). -/
def writeHS (s : HashState) (p : List Nat) : HashState :=
  if s.alg = .crc32 then ⟨.crc32, [crcUpdate (s.h.headD 0) p], [], 0⟩
  else p.foldl mdStep s

/-- Finalization padding for the 64-byte-block digests: `0x80`, zeros to
56 mod 64, then the 64-bit bit count — little-endian for MD5, big-endian
for SHA-1/SHA-256. -/
def mdPad (le : Bool) (len : Nat) : List Nat :=
  0x80 :: (List.replicate ((119 - len % 64) % 64) 0 ++
    (if le then toBytesLE 8 (len * 8 % 2 ^ 64) else toBytesBE 8 (len * 8 % 2 ^ 64)))

/-- SHA-512 padding: zeros to 112 mod 128 and a 128-bit bit count
(Go writes `len>>61` then `len<<3`, i.e. the 16-byte big-endian of
`8 * len`). -/
def sha512Pad (len : Nat) : List Nat :=
  0x80 :: (List.replicate ((239 - len % 128) % 128) 0 ++ toBytesBE 16 (len * 8))

/-- Go `Sum(nil)`: clone the state, pad, serialize the chaining values
(MD5 little-endian, SHA big-endian); CRC-32 appends the big-endian crc. -/
def sumHS (s : HashState) : List Nat :=
  match s.alg with
  | .crc32 => toBytesBE 4 (s.h.headD 0)
  | .md5 => ((writeHS s (mdPad true s.len)).h.map (toBytesLE 4)).flatten
  | .sha1 => ((writeHS s (mdPad false s.len)).h.map (toBytesBE 4)).flatten
  | .sha256 => ((writeHS s (mdPad false s.len)).h.map (toBytesBE 4)).flatten
  | .sha512 => ((writeHS s (sha512Pad s.len)).h.map (toBytesBE 8)).flatten

/-! ## Binary state snapshots (`encoding.BinaryMarshaler` /
`encoding.BinaryUnmarshaler` of the stdlib digests) -/

/-- The error values of both package generations, together with the
errors produced by the stdlib `UnmarshalBinary` implementations, and an
opaque code for errors returned by the byte source. -/
inductive GoErr
  | unSupportedHashAlg           -- hasher.go ErrUnSupportedHashAlg
  | noStates                     -- hasher.go ErrNoStates
  | notBinaryMarshaler           -- ErrNotBinaryMarshaler
  | notBinaryUnmarshaler         -- ErrNotBinaryUnmarshaler
  | noHashFunc                   -- part_001 ErrNoHashFunc
  | unmatchedHashFuncsAndStates  -- part_001 ErrUnmatchedHashFuncsAndStates
  | unSupportedHashFunc          -- part_001 ErrUnSupportedHashFunc
  | invalidStateId (a : Alg)     -- stdlib "invalid hash state identifier"
  | invalidStateSize (a : Alg)   -- stdlib "invalid hash state size"
  | crcTableMismatch             -- crc32 "tables do not match"
  | readErr (code : Nat)         -- opaque I/O error from the byte source
  deriving DecidableEq, Repr

def magicOf : Alg → List Nat
  | .md5 => [0x6D, 0x64, 0x35, 1]      -- "md5" ++ [1]
  | .sha1 => [0x73, 0x68, 0x61, 1]     -- "sha" ++ [1]
  | .sha256 => [0x73, 0x68, 0x61, 3]   -- "sha" ++ [3]
  | .sha512 => [0x73, 0x68, 0x61, 7]   -- "sha" ++ [7]
  | .crc32 => [0x63, 0x72, 0x63, 1]    -- "crc" ++ [1]

def marshaledSizeOf (a : Alg) : Nat :=
  if a = .crc32 then 12
  else 4 + wordBytesOf a * wordCountOf a + blockSizeOf a + 8

/-- Go `MarshalBinary`: magic, big-endian chaining values, the partial
block zero-padded to the block size, the 64-bit byte count; for CRC-32:
magic, IEEE table checksum, crc. -/
def marshalHS (s : HashState) : List Nat :=
  if s.alg = .crc32 then
    magicOf .crc32 ++ toBytesBE 4 crcIEEETableSum ++ toBytesBE 4 (s.h.headD 0)
  else
    magicOf s.alg ++ (s.h.map (toBytesBE (wordBytesOf s.alg))).flatten ++
      s.x ++ List.replicate (blockSizeOf s.alg - s.x.length) 0 ++ toBytesBE 8 s.len

def parseWords (ws : Nat) : Nat → List Nat → List Nat
  | 0, _ => []
  | c + 1, b => fromBytesBE (b.take ws) :: parseWords ws c (b.drop ws)

/-- Go `UnmarshalBinary`: magic check ("invalid hash state identifier"),
size check ("invalid hash state size"), then field extraction;
`nx = len % blockSize` recovers the meaningful prefix of the buffer.
CRC-32 additionally requires its table checksum to match. -/
def unmarshalHS (a : Alg) (b : List Nat) : Except GoErr HashState :=
  if b.take 4 ≠ magicOf a then .error (.invalidStateId a)
  else if b.length ≠ marshaledSizeOf a then .error (.invalidStateSize a)
  else if a = .crc32 then
    if fromBytesBE ((b.drop 4).take 4) ≠ crcIEEETableSum then
      .error .crcTableMismatch
    else .ok ⟨.crc32, [fromBytesBE ((b.drop 8).take 4)], [], 0⟩
  else
    let hw := wordBytesOf a * wordCountOf a
    let len := fromBytesBE ((b.drop (4 + hw + blockSizeOf a)).take 8)
    .ok ⟨a, parseWords (wordBytesOf a) (wordCountOf a) (b.drop 4),
      (b.drop (4 + hw)).take (len % blockSizeOf a), len⟩

/-! ## Structural lemmas about the accumulators -/

theorem not32_not32 (x : Nat) : not32 (not32 x) = x := by
  unfold not32
  rw [Nat.xor_assoc, Nat.xor_self, Nat.xor_zero]

/-- Go `crc32.Update` composes over concatenation: the pre/post
inversions cancel between consecutive calls. -/
theorem crcUpdate_append (c : Nat) (p q : List Nat) :
    crcUpdate (crcUpdate c p) q = crcUpdate c (p ++ q) := by
  unfold crcUpdate
  rw [not32_not32, List.foldl_append]

theorem mdStep_alg (s : HashState) (b : Nat) : (mdStep s b).alg = s.alg := by
  unfold mdStep
  dsimp only
  split <;> rfl

theorem foldl_mdStep_alg (p : List Nat) (s : HashState) :
    (p.foldl mdStep s).alg = s.alg := by
  induction p generalizing s with
  | nil => rfl
  | cons b t ih => rw [List.foldl_cons, ih, mdStep_alg]

theorem writeHS_alg (s : HashState) (p : List Nat) :
    (writeHS s p).alg = s.alg := by
  rw [writeHS]
  split
  · rename_i h; exact h.symm
  · exact foldl_mdStep_alg p s

/-- Writing `p` and then `q` is writing `p ++ q`: the buffered
Merkle–Damgård write and the CRC update both compose. -/
theorem writeHS_append (s : HashState) (p q : List Nat) :
    writeHS (writeHS s p) q = writeHS s (p ++ q) := by
  by_cases h : s.alg = .crc32
  · simp [writeHS, writeHS_alg, h, crcUpdate_append]
  · simp [writeHS, writeHS_alg, h, foldl_mdStep_alg, List.foldl_append]

theorem list_len_four {α : Type} {l : List α} (h : l.length = 4) :
    ∃ a b c d, l = [a, b, c, d] := by
  match l with
  | [a, b, c, d] => exact ⟨a, b, c, d, rfl⟩
  | [] | [_] | [_, _] | [_, _, _] => simp at h
  | _ :: _ :: _ :: _ :: _ :: _ => simp at h

theorem list_len_five {α : Type} {l : List α} (h : l.length = 5) :
    ∃ a b c d e, l = [a, b, c, d, e] := by
  match l with
  | [a, b, c, d, e] => exact ⟨a, b, c, d, e, rfl⟩
  | [] | [_] | [_, _] | [_, _, _] | [_, _, _, _] => simp at h
  | _ :: _ :: _ :: _ :: _ :: _ :: _ => simp at h

theorem list_len_eight {α : Type} {l : List α} (h : l.length = 8) :
    ∃ a b c d e f g k, l = [a, b, c, d, e, f, g, k] := by
  match l with
  | [a, b, c, d, e, f, g, k] => exact ⟨a, b, c, d, e, f, g, k, rfl⟩
  | [] | [_] | [_, _] | [_, _, _] | [_, _, _, _] | [_, _, _, _, _]
  | [_, _, _, _, _, _] | [_, _, _, _, _, _, _] => simp at h
  | _ :: _ :: _ :: _ :: _ :: _ :: _ :: _ :: _ :: _ => simp at h

theorem md5Block_wf {h : List Nat} (blk : List Nat) (hl : h.length = 4) :
    (md5Block h blk).length = 4 ∧ ∀ w ∈ md5Block h blk, w < 2 ^ 32 := by
  obtain ⟨a, b, c, d, rfl⟩ := list_len_four hl
  simp only [md5Block]
  generalize List.foldl (md5Round (word32le blk)) (a, b, c, d) (List.range 64) = p
  obtain ⟨p1, p2, p3, p4⟩ := p
  refine ⟨rfl, ?_⟩
  intro w hw
  simp only [List.mem_cons, List.not_mem_nil, or_false] at hw
  rcases hw with rfl | rfl | rfl | rfl <;> exact Nat.mod_lt _ (by norm_num)

theorem sha1Block_wf {h : List Nat} (blk : List Nat) (hl : h.length = 5) :
    (sha1Block h blk).length = 5 ∧ ∀ w ∈ sha1Block h blk, w < 2 ^ 32 := by
  obtain ⟨a, b, c, d, e, rfl⟩ := list_len_five hl
  simp only [sha1Block]
  generalize List.foldl (sha1Round (sha1W blk)) (a, b, c, d, e) (List.range 80) = p
  obtain ⟨p1, p2, p3, p4, p5⟩ := p
  refine ⟨rfl, ?_⟩
  intro w hw
  simp only [List.mem_cons, List.not_mem_nil, or_false] at hw
  rcases hw with rfl | rfl | rfl | rfl | rfl <;> exact Nat.mod_lt _ (by norm_num)

theorem sha256Block_wf {h : List Nat} (blk : List Nat) (hl : h.length = 8) :
    (sha256Block h blk).length = 8 ∧ ∀ w ∈ sha256Block h blk, w < 2 ^ 32 := by
  obtain ⟨a, b, c, d, e, f, g, k, rfl⟩ := list_len_eight hl
  simp only [sha256Block]
  generalize List.foldl (sha256Round (sha256W blk)) (a, b, c, d, e, f, g, k)
    (List.range 64) = p
  obtain ⟨p1, p2, p3, p4, p5, p6, p7, p8⟩ := p
  refine ⟨rfl, ?_⟩
  intro w hw
  simp only [List.mem_cons, List.not_mem_nil, or_false] at hw
  rcases hw with rfl | rfl | rfl | rfl | rfl | rfl | rfl | rfl <;>
    exact Nat.mod_lt _ (by norm_num)

theorem sha512Block_wf {h : List Nat} (blk : List Nat) (hl : h.length = 8) :
    (sha512Block h blk).length = 8 ∧ ∀ w ∈ sha512Block h blk, w < 2 ^ 64 := by
  obtain ⟨a, b, c, d, e, f, g, k, rfl⟩ := list_len_eight hl
  simp only [sha512Block]
  generalize List.foldl (sha512Round (sha512W blk)) (a, b, c, d, e, f, g, k)
    (List.range 80) = p
  obtain ⟨p1, p2, p3, p4, p5, p6, p7, p8⟩ := p
  refine ⟨rfl, ?_⟩
  intro w hw
  simp only [List.mem_cons, List.not_mem_nil, or_false] at hw
  rcases hw with rfl | rfl | rfl | rfl | rfl | rfl | rfl | rfl <;>
    exact Nat.mod_lt _ (by norm_num)

/-! ## Well-formed states

`WFState` collects the invariants every state reachable through the API
satisfies: chaining values are machine words of the right count, the
partial block is exactly `len % blockSize` bytes, and the byte count fits
in a `uint64`.  A CRC-32 state is a single 32-bit word with no buffer. -/

def WFState (s : HashState) : Prop :=
  if s.alg = .crc32 then
    s.h.length = 1 ∧ (∀ w ∈ s.h, w < 2 ^ 32) ∧ s.x = [] ∧ s.len = 0
  else
    s.h.length = wordCountOf s.alg ∧
      (∀ w ∈ s.h, w < 2 ^ (8 * wordBytesOf s.alg)) ∧
      s.x.length = s.len % blockSizeOf s.alg ∧ s.len < 2 ^ 64

instance (s : HashState) : Decidable (WFState s) :=
  if h : s.alg = .crc32 then
    decidable_of_iff
      (s.h.length = 1 ∧ (∀ w ∈ s.h, w < 2 ^ 32) ∧ s.x = [] ∧ s.len = 0)
      (by rw [WFState, if_pos h])
  else
    decidable_of_iff
      (s.h.length = wordCountOf s.alg ∧
        (∀ w ∈ s.h, w < 2 ^ (8 * wordBytesOf s.alg)) ∧
        s.x.length = s.len % blockSizeOf s.alg ∧ s.len < 2 ^ 64)
      (by rw [WFState, if_neg h])

theorem blockSizeOf_pos (a : Alg) : 0 < blockSizeOf a := by
  cases a <;> decide

theorem blockSizeOf_dvd (a : Alg) : blockSizeOf a ∣ 2 ^ 64 := by
  cases a <;> decide

/-- The compression step of each buffered algorithm preserves the shape
and word bounds of the chaining values. -/
theorem blockOf_wf (a : Alg) (hne : a ≠ .crc32) {h : List Nat}
    (blk : List Nat) (hl : h.length = wordCountOf a) :
    (blockOf a h blk).length = wordCountOf a ∧
      ∀ w ∈ blockOf a h blk, w < 2 ^ (8 * wordBytesOf a) := by
  cases a with
  | md5 => exact md5Block_wf blk hl
  | sha1 => exact sha1Block_wf blk hl
  | sha256 => exact sha256Block_wf blk hl
  | sha512 => exact sha512Block_wf blk hl
  | crc32 => exact absurd rfl hne

theorem mdStep_wf {s : HashState} (b : Nat) (hne : s.alg ≠ .crc32)
    (hwf : WFState s) : WFState (mdStep s b) := by
  rw [WFState, if_neg hne] at hwf
  obtain ⟨hl, hb, hx, h64⟩ := hwf
  have hbs := blockSizeOf_pos s.alg
  have hdvd := blockSizeOf_dvd s.alg
  have hxlt : s.len % blockSizeOf s.alg < blockSizeOf s.alg :=
    Nat.mod_lt _ hbs
  have hq := Nat.div_add_mod s.len (blockSizeOf s.alg)
  rw [mdStep]
  by_cases hfull : (s.x ++ [b]).length = blockSizeOf s.alg
  · rw [if_pos hfull, WFState, if_neg hne]
    obtain ⟨hbl, hbb⟩ := blockOf_wf s.alg hne (s.x ++ [b]) hl
    refine ⟨hbl, hbb, ?_, Nat.mod_lt _ (by norm_num)⟩
    have e1 : (s.len + 1) % 2 ^ 64 % blockSizeOf s.alg =
        (s.len + 1) % blockSizeOf s.alg := Nat.mod_mod_of_dvd _ hdvd
    have e2 : s.x.length + 1 = blockSizeOf s.alg := by
      rw [List.length_append, List.length_singleton] at hfull
      exact hfull
    have e3 : s.len + 1 =
        blockSizeOf s.alg * (s.len / blockSizeOf s.alg + 1) := by
      rw [Nat.mul_succ]
      omega
    rw [List.length_nil, e1, e3, Nat.mul_mod_right]
  · rw [if_neg hfull, WFState, if_neg hne]
    refine ⟨hl, hb, ?_, Nat.mod_lt _ (by norm_num)⟩
    have e1 : (s.len + 1) % 2 ^ 64 % blockSizeOf s.alg =
        (s.len + 1) % blockSizeOf s.alg := Nat.mod_mod_of_dvd _ hdvd
    have e2 : s.x.length + 1 ≠ blockSizeOf s.alg := by
      rw [List.length_append, List.length_singleton] at hfull
      exact hfull
    have e3 : s.len + 1 = blockSizeOf s.alg * (s.len / blockSizeOf s.alg) +
        (s.len % blockSizeOf s.alg + 1) := by omega
    rw [List.length_append, List.length_singleton, e1, e3, Nat.mul_add_mod,
      Nat.mod_eq_of_lt (by omega)]
    omega

theorem foldl_mdStep_wf (p : List Nat) {s : HashState}
    (hne : s.alg ≠ .crc32) (hwf : WFState s) :
    WFState (p.foldl mdStep s) := by
  induction p generalizing s with
  | nil => exact hwf
  | cons b t ih =>
      rw [List.foldl_cons]
      exact ih (by rw [mdStep_alg]; exact hne) (mdStep_wf b hne hwf)

/-! CRC-32 arithmetic bounds -/

theorem crcBitStep_lt {c : Nat} (h : c < 2 ^ 32) : crcBitStep c < 2 ^ 32 := by
  have hs : c >>> 1 < 2 ^ 32 :=
    lt_of_le_of_lt (by rw [Nat.shiftRight_eq_div_pow]; exact Nat.div_le_self _ _) h
  rw [crcBitStep]
  split
  · exact Nat.xor_lt_two_pow hs (by decide)
  · exact hs

theorem crcTableEntry_lt {i : Nat} (h : i < 2 ^ 32) :
    crcTableEntry i < 2 ^ 32 := by
  rw [crcTableEntry]
  iterate 8 apply crcBitStep_lt
  exact h

theorem crcUpdateByte_lt {c : Nat} (b : Nat) (h : c < 2 ^ 32) :
    crcUpdateByte c b < 2 ^ 32 := by
  rw [crcUpdateByte]
  refine Nat.xor_lt_two_pow (crcTableEntry_lt ?_) ?_
  · exact lt_of_lt_of_le (Nat.mod_lt _ (by norm_num)) (by norm_num)
  · exact lt_of_le_of_lt
      (by rw [Nat.shiftRight_eq_div_pow]; exact Nat.div_le_self _ _) h

theorem not32_lt {c : Nat} (h : c < 2 ^ 32) : not32 c < 2 ^ 32 := by
  rw [not32]; exact Nat.xor_lt_two_pow h (by norm_num)

theorem foldl_crcUpdateByte_lt (p : List Nat) {c : Nat} (h : c < 2 ^ 32) :
    p.foldl crcUpdateByte c < 2 ^ 32 := by
  induction p generalizing c with
  | nil => exact h
  | cons b t ih => exact ih (crcUpdateByte_lt b h)

theorem crcUpdate_lt {c : Nat} (p : List Nat) (h : c < 2 ^ 32) :
    crcUpdate c p < 2 ^ 32 := by
  rw [crcUpdate]
  exact not32_lt (foldl_crcUpdateByte_lt p (not32_lt h))

theorem crcIEEETableSum_lt : crcIEEETableSum < 2 ^ 32 :=
  crcUpdate_lt _ (by norm_num)

/-- Writing preserves well-formedness. -/
theorem writeHS_wf {s : HashState} (p : List Nat) (hwf : WFState s) :
    WFState (writeHS s p) := by
  by_cases h : s.alg = .crc32
  · rw [WFState, if_pos h] at hwf
    obtain ⟨hl, hb, hx, hlen⟩ := hwf
    obtain ⟨c, hc⟩ := List.length_eq_one.1 hl
    rw [writeHS, if_pos h, WFState, if_pos rfl, hc]
    refine ⟨rfl, ?_, rfl, rfl⟩
    intro w hw
    rw [List.mem_singleton] at hw
    subst hw
    exact crcUpdate_lt p (hb c (by rw [hc]; exact List.mem_singleton_self c))
  · rw [writeHS, if_neg h]
    exact foldl_mdStep_wf p h hwf

theorem newHashState_wf (a : Alg) : WFState (newHashState a) := by
  cases a <;> decide

/-! ## Round trip of the binary snapshots -/

theorem length_magicOf (a : Alg) : (magicOf a).length = 4 := by
  cases a <;> rfl

theorem length_flatten_toBytesBE (ws : Nat) (h : List Nat) :
    (h.map (toBytesBE ws)).flatten.length = ws * h.length := by
  induction h with
  | nil => simp
  | cons w t ih =>
      rw [List.map_cons, List.flatten_cons, List.length_append, ih,
        length_toBytesBE, List.length_cons, Nat.mul_succ]
      omega

theorem drop_chunk {α : Type} {l₁ l₂ : List α} {n : Nat} (k : Nat)
    (h : l₁.length = n) : (l₁ ++ l₂).drop (n + k) = l₂.drop k := by
  rw [← h]; exact List.drop_append k

theorem parseWords_flatten (ws : Nat) (h : List Nat) (rest : List Nat)
    (hb : ∀ w ∈ h, w < 2 ^ (8 * ws)) :
    parseWords ws h.length ((h.map (toBytesBE ws)).flatten ++ rest) = h := by
  induction h generalizing rest with
  | nil => rfl
  | cons w t ih =>
      rw [List.map_cons, List.flatten_cons, List.append_assoc, List.length_cons,
        parseWords, List.take_left' (length_toBytesBE ws w),
        List.drop_left' (length_toBytesBE ws w), fromBytesBE_toBytesBE]
      have h256 : (256 : Nat) ^ ws = 2 ^ (8 * ws) := by
        rw [pow_mul]; norm_num
      rw [h256, Nat.mod_eq_of_lt (hb w (List.mem_cons_self w t)),
        ih _ (fun u hu => hb u (List.mem_cons_of_mem w hu))]

/-- The central snapshot property of the stdlib digests: unmarshaling a
marshaled well-formed state restores the state exactly. -/
theorem unmarshalHS_marshalHS {s : HashState} (hwf : WFState s) :
    unmarshalHS s.alg (marshalHS s) = .ok s := by
  obtain ⟨alg, hh, xx, ll⟩ := s
  by_cases hcrc : alg = Alg.crc32
  · subst hcrc
    rw [WFState, if_pos rfl] at hwf
    obtain ⟨hl, hb, hx, hlen⟩ := hwf
    dsimp only at hl hb hx hlen
    obtain ⟨c, hc⟩ := List.length_eq_one.1 hl
    subst hc; subst hx; subst hlen
    have hcb : c < 2 ^ 32 := hb c (List.mem_singleton_self c)
    have e1 : marshalHS ⟨Alg.crc32, [c], [], 0⟩ =
        magicOf Alg.crc32 ++ toBytesBE 4 crcIEEETableSum ++ toBytesBE 4 c := rfl
    rw [e1, unmarshalHS]
    have hA : (magicOf Alg.crc32 ++ toBytesBE 4 crcIEEETableSum ++
        toBytesBE 4 c).take 4 = magicOf Alg.crc32 := by
      rw [List.append_assoc]; exact List.take_left' rfl
    have hB : (magicOf Alg.crc32 ++ toBytesBE 4 crcIEEETableSum ++
        toBytesBE 4 c).length = 12 := by
      simp [magicOf]
    have hC : (magicOf Alg.crc32 ++ toBytesBE 4 crcIEEETableSum ++
        toBytesBE 4 c).drop 4 = toBytesBE 4 crcIEEETableSum ++ toBytesBE 4 c := by
      rw [List.append_assoc]; exact List.drop_left' rfl
    have hD : (toBytesBE 4 crcIEEETableSum ++ toBytesBE 4 c).take 4
        = toBytesBE 4 crcIEEETableSum := List.take_left' (length_toBytesBE 4 _)
    have hE : (magicOf Alg.crc32 ++ toBytesBE 4 crcIEEETableSum ++
        toBytesBE 4 c).drop 8 = toBytesBE 4 c :=
      List.drop_left' (by simp [magicOf])
    have hF : (toBytesBE 4 c).take 4 = toBytesBE 4 c :=
      List.take_of_length_le (by simp)
    rw [hA, hB, hC, hD, hE, hF, fromBytesBE_toBytesBE, fromBytesBE_toBytesBE,
      Nat.mod_eq_of_lt (lt_of_lt_of_le crcIEEETableSum_lt (by norm_num)),
      Nat.mod_eq_of_lt (lt_of_lt_of_le hcb (by norm_num))]
    simp [marshaledSizeOf]
  · rw [WFState, if_neg hcrc] at hwf
    obtain ⟨hl, hb, hx, h64⟩ := hwf
    dsimp only at hl hb hx h64
    have hbs := blockSizeOf_pos alg
    have hxlt : xx.length < blockSizeOf alg := by
      rw [hx]; exact Nat.mod_lt _ hbs
    have hmag := length_magicOf alg
    have hWlen : ((hh.map (toBytesBE (wordBytesOf alg))).flatten).length
        = wordBytesOf alg * wordCountOf alg := by
      rw [length_flatten_toBytesBE, hl]
    have hpadlen : (xx ++ List.replicate (blockSizeOf alg - xx.length) 0).length
        = blockSizeOf alg := by
      simp only [List.length_append, List.length_replicate]; omega
    rw [marshalHS]
    dsimp only
    rw [if_neg hcrc, unmarshalHS]
    have hA : (magicOf alg ++ (hh.map (toBytesBE (wordBytesOf alg))).flatten ++
        xx ++ List.replicate (blockSizeOf alg - xx.length) 0 ++
        toBytesBE 8 ll).take 4 = magicOf alg := by
      simp only [List.append_assoc]
      exact List.take_left' hmag
    have hB : (magicOf alg ++ (hh.map (toBytesBE (wordBytesOf alg))).flatten ++
        xx ++ List.replicate (blockSizeOf alg - xx.length) 0 ++
        toBytesBE 8 ll).length
        = 4 + wordBytesOf alg * wordCountOf alg + blockSizeOf alg + 8 := by
      simp only [List.length_append, hWlen, length_toBytesBE, hmag,
        List.length_replicate]
      omega
    have hsize : marshaledSizeOf alg
        = 4 + wordBytesOf alg * wordCountOf alg + blockSizeOf alg + 8 := by
      rw [marshaledSizeOf, if_neg hcrc]
    have hdrop4 : (magicOf alg ++ (hh.map (toBytesBE (wordBytesOf alg))).flatten ++
        xx ++ List.replicate (blockSizeOf alg - xx.length) 0 ++
        toBytesBE 8 ll).drop 4
        = (hh.map (toBytesBE (wordBytesOf alg))).flatten ++
          (xx ++ (List.replicate (blockSizeOf alg - xx.length) 0 ++
            toBytesBE 8 ll)) := by
      simp only [List.append_assoc]
      exact List.drop_left' hmag
    have hdropHW : (magicOf alg ++ (hh.map (toBytesBE (wordBytesOf alg))).flatten ++
        xx ++ List.replicate (blockSizeOf alg - xx.length) 0 ++
        toBytesBE 8 ll).drop (4 + wordBytesOf alg * wordCountOf alg)
        = xx ++ (List.replicate (blockSizeOf alg - xx.length) 0 ++
            toBytesBE 8 ll) := by
      simp only [List.append_assoc]
      rw [drop_chunk _ hmag]
      exact List.drop_left' hWlen
    have hdropLen : (magicOf alg ++ (hh.map (toBytesBE (wordBytesOf alg))).flatten ++
        xx ++ List.replicate (blockSizeOf alg - xx.length) 0 ++
        toBytesBE 8 ll).drop
          (4 + wordBytesOf alg * wordCountOf alg + blockSizeOf alg)
        = toBytesBE 8 ll := by
      simp only [List.append_assoc]
      rw [Nat.add_assoc, drop_chunk _ hmag, drop_chunk _ hWlen,
        ← List.append_assoc]
      exact List.drop_left' hpadlen
    have hlen8 : fromBytesBE ((toBytesBE 8 ll).take 8) = ll := by
      rw [List.take_of_length_le (by simp), fromBytesBE_toBytesBE,
        Nat.mod_eq_of_lt (lt_of_lt_of_le h64 (by norm_num))]
    have hxtake : (xx ++ (List.replicate (blockSizeOf alg - xx.length) 0 ++
        toBytesBE 8 ll)).take (ll % blockSizeOf alg) = xx :=
      List.take_left' hx
    have hparse : parseWords (wordBytesOf alg) (wordCountOf alg)
        ((hh.map (toBytesBE (wordBytesOf alg))).flatten ++
          (xx ++ (List.replicate (blockSizeOf alg - xx.length) 0 ++
            toBytesBE 8 ll))) = hh := by
      rw [← hl]
      exact parseWords_flatten _ hh _ hb
    simp only [hA, hB, hsize, hdrop4, hdropHW, hdropLen, hlen8, hxtake, hparse]
    simp [hcrc]

/-! ## Association-list model of Go string-keyed maps

Go map iteration order is randomized; the association list fixes one
order.  Every claim proved below is insensitive to this choice (the one
spot where the order selects which concrete error value surfaces is
flagged at its theorem). -/

def lookupL {κ β : Type} [DecidableEq κ] (k : κ) : List (κ × β) → Option β
  | [] => none
  | p :: t => if p.1 = k then some p.2 else lookupL k t

/-- Go map assignment `m[k] = v`: overwrite if present, else append. -/
def mapSet {κ β : Type} [DecidableEq κ] (m : List (κ × β)) (k : κ) (v : β) :
    List (κ × β) :=
  if m.any (fun p => p.1 = k) then
    m.map (fun p => if p.1 = k then (k, v) else p)
  else m ++ [(k, v)]

/-! ## The `hasher.go` generation

`src/hasher.go`: the `Hasher` holds an `io.Reader` and a
`map[string]hash.Hash`.  The reader is an external collaborator (file,
HTTP body, strings); here the map of accumulators is modelled directly
and feeding `n` bytes through the `io.MultiWriter` of all accumulators is
`writeHasher`. -/

namespace HasherGo

/-- Go `hashAlgsToNewFuncs`: the registry mapping algorithm names to
constructors (a constructor is deterministic, so it is represented by
the `Alg` it builds a fresh state of). -/
def hashAlgsToNewFuncs : List (String × Alg) :=
  [("MD5", .md5), ("SHA-1", .sha1), ("SHA-256", .sha256),
    ("SHA-512", .sha512), ("CRC-32", .crc32)]

/-- Go `SupportedHashAlgs()`: the registry keys, sorted lexically. -/
def SupportedHashAlgs : List String :=
  ["CRC-32", "MD5", "SHA-1", "SHA-256", "SHA-512"]

/-- Go `newHasher` (wrapped by `New`, `FromStrings`, `FromFile`, ...).
A `nil` variadic `hashAlgs` (`none`) defaults to all supported
algorithms; an explicit empty list stays empty.  Unknown names fail with
`ErrUnSupportedHashAlg`. -/
def newHasher (hashAlgs : Option (List String)) :
    Except GoErr (List (String × HashState)) :=
  let algs := match hashAlgs with
    | none => SupportedHashAlgs
    | some l => l
  algs.foldlM
    (fun m alg =>
      match lookupL alg hashAlgsToNewFuncs with
      | none => .error .unSupportedHashAlg
      | some a => .ok (mapSet m alg (newHashState a)))
    []

/-- Go `newHasherWithStates` (wrapped by `NewWithStates`,
`FromFileWithStates`, `FromUrlWithStates`): reject a `nil` map with
`ErrNoStates`, collect the key set (an empty map leaves the Go slice
`algs` nil, so `newHasher` falls back to all supported algorithms),
create fresh accumulators, then `UnmarshalBinary` each saved blob.  A
key missing from `states` reads as Go's zero value `nil`, modelled `[]`. -/
def newHasherWithStates (states : Option (List (String × List Nat))) :
    Except GoErr (List (String × HashState)) :=
  match states with
  | none => .error .noStates
  | some sts => do
      let h ← newHasher (if sts.isEmpty then none else some (sts.map Prod.fst))
      h.mapM (fun p => do
        let st ← unmarshalHS p.2.alg ((lookupL p.1 sts).getD [])
        pure (p.1, st))

/-- Go `Hasher.States`: `MarshalBinary` every accumulator.  All five stdlib
digests implement `encoding.BinaryMarshaler` and their `MarshalBinary`
never returns an error, so the `ErrNotBinaryMarshaler` branch is
unreachable for states built by this package. -/
def States (hashes : List (String × HashState)) :
    Except GoErr (List (String × List Nat)) :=
  .ok (hashes.map (fun p => (p.1, marshalHS p.2)))

/-- Go `Hasher.Checksums`: `Sum(nil)` of every accumulator. -/
def Checksums (hashes : List (String × HashState)) :
    List (String × List Nat) :=
  hashes.map (fun p => (p.1, sumHS p.2))

/-- Feeding a chunk through the `io.MultiWriter` over all accumulators
(the write path of `Hasher.Start` / `Hasher.Compute`). -/
def writeHasher (hashes : List (String × HashState)) (p : List Nat) :
    List (String × HashState) :=
  hashes.map (fun q => (q.1, writeHS q.2 p))

/-- Go `hex.EncodeToString`: two lowercase hex digits per byte. -/
def hexDigits : List Char := "0123456789abcdef".toList

def hexEncode (bs : List Nat) : List Char :=
  bs.flatMap (fun b => [hexDigits.getD (b / 16 % 16) '0', hexDigits.getD (b % 16) '0'])

/-- Go `strings.ToLower` restricted to the characters that can occur here. -/
def toLowerStr (cs : List Char) : List Char := cs.map Char.toLower

/-- Go `Hasher.Match`: build the map from hex checksum string to algorithm,
lower-case the candidate, and look it up. -/
def Match (hashes : List (String × HashState)) (checksum : List Char) :
    Bool × String :=
  let m := hashes.foldl
    (fun acc p => mapSet acc (hexEncode (sumHS p.2)) p.1) []
  let c := toLowerStr checksum
  match lookupL c m with
  | some alg => (true, alg)
  | none => (false, "")

end HasherGo

/-! ## The engine generation (`src/unnamed/part_001`)

`New` stores the configuration without validating it; all validation
happens inside the goroutine spawned by `Start`, and failures surface as
`ErrorEvent`s on the returned channel.  The event `When()` timestamps of
`part_000` are wall-clock metadata and are not modelled. -/

namespace Engine

def AvailableHashFuncs : List String :=
  ["MD5", "CRC-32", "SHA-1", "SHA-256", "SHA-512"]

def GetAvailableHashFuncs : List String := AvailableHashFuncs

/-- Go `GetHashByName`: the `switch` matches names exactly (case-sensitive). -/
def GetHashByName (name : String) : Except GoErr HashState :=
  if name = "MD5" then .ok (newHashState .md5)
  else if name = "CRC-32" then .ok (newHashState .crc32)
  else if name = "SHA-1" then .ok (newHashState .sha1)
  else if name = "SHA-256" then .ok (newHashState .sha256)
  else if name = "SHA-512" then .ok (newHashState .sha512)
  else .error .unSupportedHashFunc

def DefBufSize : Int := 32 * 1024

def MaxBufSize : Int := 4 * 1024 * 1024 * 1024

def updateBufferSize (bufferSize : Int) : Int :=
  if bufferSize ≤ 0 then DefBufSize
  else if bufferSize > MaxBufSize then MaxBufSize
  else bufferSize

structure Hasher where
  hashFuncs : Option (List String)  -- Go []string; none models a nil slice
  bufferSize : Int
  deriving DecidableEq, Repr

/-- Go `New`: stores the configuration; it cannot fail. -/
def New (hashFuncs : Option (List String)) (bufferSize : Int) : Hasher :=
  ⟨hashFuncs, updateBufferSize bufferSize⟩

/-- Go `getHashesAndWriter`: `nil` or empty name list fails with
`ErrNoHashFunc`; otherwise resolve every name through `GetHashByName`
(the `io.MultiWriter` is represented by writing each accumulator). -/
def getHashesAndWriter (hashFuncs : Option (List String)) :
    Except GoErr (List (String × HashState)) :=
  match hashFuncs with
  | none => .error .noHashFunc
  | some [] => .error .noHashFunc
  | some l =>
      l.foldlM (fun m name => do
        let h ← GetHashByName name
        pure (mapSet m name h)) []

/-- Go `loadStates`: a `nil` states map is silently accepted (fresh start);
otherwise the key set must match the accumulators exactly —
`len(hashes) != len(states)` or any accumulator name missing from
`states` fails with `ErrUnmatchedHashFuncsAndStates` — and then each
accumulator's state is imported with `UnmarshalBinary`. -/
def loadStates (hashes : List (String × HashState))
    (states : Option (List (String × List Nat))) :
    Except GoErr (List (String × HashState)) :=
  match states with
  | none => .ok hashes
  | some sts =>
      if hashes.length ≠ sts.length then .error .unmatchedHashFuncsAndStates
      else if hashes.all (fun p => (lookupL p.1 sts).isSome) then
        hashes.mapM (fun p => do
          let st ← unmarshalHS p.2.alg ((lookupL p.1 sts).getD [])
          pure (p.1, st))
      else .error .unmatchedHashFuncsAndStates

/-- Go `outputStates`: `MarshalBinary` every accumulator.  As with
`HasherGo.States`, the marshaler type assertion and `MarshalBinary`
cannot fail for the five algorithms of this package, so the error
branches are unreachable and the result is always `ok`. -/
def outputStates (hashes : List (String × HashState)) :
    Except GoErr (List (String × List Nat)) :=
  .ok (hashes.map (fun p => (p.1, marshalHS p.2)))

/-- The four event kinds of `part_000` (`ErrorEvent`, `computedEvent`,
`StopEvent`, `OKEvent`); creation timestamps are not modelled. -/
inductive EngineEvent
  | errorEv (e : GoErr)
  | computedEv (computed : Nat)
  | stopEv (computed : Nat) (states : List (String × List Nat))
  | okEv (computed : Nat) (checksums : List (String × List Nat))
  deriving DecidableEq, Repr

/-- Terminal events: everything except the progress (`computedEvent`)
report. -/
def isTerminal : EngineEvent → Bool
  | .computedEv _ => false
  | _ => true

/-- The byte source: `io.CopyBuffer(w, r, buf)` copies `data` to the
accumulators in buffer-sized stages until the reader reports
end-of-stream or the error `err`; a later call on the drained reader
returns `(0, nil)`. -/
structure RdrSt where
  data : List Nat
  err : Option GoErr
  deriving DecidableEq, Repr

/-- One `for` loop of the goroutine body of `Hasher.Start`:

* drain the ticker (`computedEvent` with the running byte count);
* poll `ctx.Done()` (`cancel i` is the poll result at iteration `i`):
  if canceled, export states and emit one `StopEvent`, ending the run;
* otherwise `io.CopyBuffer`: an `(n, err)` with `err ≠ nil` emits one
  `ErrorEvent`; `n = 0` emits one `OKEvent` with the checksums;
  otherwise all remaining source bytes were hashed in this iteration
  (`CopyBuffer` runs to end-of-stream), `computed += n`, loop.

The `fuel` argument only bounds the recursion; `Start` supplies
`data.length + 2`, which the lemmas below show is never exhausted. -/
def runLoop (cancel tick : Nat → Bool) (hasTicker : Bool) :
    Nat → List (String × HashState) → RdrSt → Nat → Nat → List EngineEvent
  | 0, _, _, _, _ => []
  | fuel + 1, hashes, r, computed, i =>
      let tickE := if hasTicker && tick i then [EngineEvent.computedEv computed]
        else []
      if cancel i then
        tickE ++ (match outputStates hashes with
          | .error e => [.errorEv e]
          | .ok sts => [.stopEv computed sts])
      else
        match r.err with
        | some e => tickE ++ [.errorEv e]
        | none =>
            if r.data.length = 0 then
              tickE ++ [.okEv computed (hashes.map (fun p => (p.1, sumHS p.2)))]
            else
              tickE ++ runLoop cancel tick hasTicker fuel
                (hashes.map (fun p => (p.1, writeHS p.2 r.data)))
                ⟨[], none⟩ (computed + r.data.length) (i + 1)

/-- Go `Hasher.Start`: the event sequence the goroutine sends before
`close(ch)`.  `cancel i` is what the non-blocking `ctx.Done()` poll
returns at loop iteration `i`; `hasTicker` is `reportComputedInterval >
0` and `tick i` whether the ticker had fired when iteration `i` drains
it. -/
def Start (h : Hasher) (r : RdrSt)
    (states : Option (List (String × List Nat)))
    (cancel tick : Nat → Bool) (hasTicker : Bool) : List EngineEvent :=
  match getHashesAndWriter h.hashFuncs with
  | .error e => [.errorEv e]
  | .ok hashes =>
      match loadStates hashes states with
      | .error e => [.errorEv e]
      | .ok hashes2 =>
          runLoop cancel tick hasTicker (r.data.length + 2) hashes2 r 0 0

end Engine

/-! ## Lemmas about the engine event sequence -/

theorem tickE_nonterminal {hasTicker : Bool} {tick : Nat → Bool} {i c : Nat} :
    ∀ e ∈ (if hasTicker && tick i then [Engine.EngineEvent.computedEv c]
      else []), Engine.isTerminal e = false := by
  split
  · intro e he
    rw [List.mem_singleton] at he
    subst he
    rfl
  · intro e he
    simp at he

/-- Once the source is drained (`io.CopyBuffer` returned all the data in
a previous iteration), the next loop iteration always ends the run with
a terminal event. -/
theorem runLoop_empty_term (cancel tick : Nat → Bool) (hasTicker : Bool)
    (f : Nat) (hashes : List (String × HashState)) (computed i : Nat) :
    ∃ pre t,
      Engine.runLoop cancel tick hasTicker (f + 1) hashes ⟨[], none⟩ computed i
        = pre ++ [t] ∧ Engine.isTerminal t = true ∧
        ∀ e ∈ pre, Engine.isTerminal e = false := by
  by_cases hc : cancel i
  · exact ⟨(if hasTicker && tick i then [.computedEv computed] else []),
      .stopEv computed (hashes.map (fun p => (p.1, marshalHS p.2))),
      by rw [Engine.runLoop]; simp [hc, Engine.outputStates],
      rfl, tickE_nonterminal⟩
  · exact ⟨(if hasTicker && tick i then [.computedEv computed] else []),
      .okEv computed (hashes.map (fun p => (p.1, sumHS p.2))),
      by rw [Engine.runLoop]; simp [hc],
      rfl, tickE_nonterminal⟩

/-- With the fuel budget `Start` supplies, every run of the loop ends in
exactly one terminal event preceded only by progress reports. -/
theorem runLoop_term (cancel tick : Nat → Bool) (hasTicker : Bool)
    (hashes : List (String × HashState)) (r : Engine.RdrSt) (computed i : Nat) :
    ∃ pre t,
      Engine.runLoop cancel tick hasTicker (r.data.length + 2) hashes r computed i
        = pre ++ [t] ∧ Engine.isTerminal t = true ∧
        ∀ e ∈ pre, Engine.isTerminal e = false := by
  obtain ⟨data, err⟩ := r
  dsimp only
  by_cases hc : cancel i
  · exact ⟨(if hasTicker && tick i then [.computedEv computed] else []),
      .stopEv computed (hashes.map (fun p => (p.1, marshalHS p.2))),
      by rw [Engine.runLoop]; simp [hc, Engine.outputStates],
      rfl, tickE_nonterminal⟩
  · cases err with
    | some e =>
        exact ⟨(if hasTicker && tick i then [.computedEv computed] else []),
          .errorEv e, by rw [Engine.runLoop]; simp [hc], rfl, tickE_nonterminal⟩
    | none =>
        by_cases hd : data.length = 0
        · exact ⟨(if hasTicker && tick i then [.computedEv computed] else []),
            .okEv computed (hashes.map (fun p => (p.1, sumHS p.2))),
            by rw [Engine.runLoop]; simp [hc, hd], rfl, tickE_nonterminal⟩
        · obtain ⟨pre, t, he, ht, hp⟩ := runLoop_empty_term cancel tick hasTicker
            data.length (hashes.map (fun p => (p.1, writeHS p.2 data)))
            (computed + data.length) (i + 1)
          refine ⟨(if hasTicker && tick i then [.computedEv computed] else [])
            ++ pre, t, ?_, ht, ?_⟩
          · rw [Engine.runLoop]
            simp only [hc, if_false, hd, Bool.false_eq_true]
            rw [List.append_assoc, ← he]
          · intro e he'
            rcases List.mem_append.1 he' with h | h
            · exact tickE_nonterminal e h
            · exact hp e h

/-! ## Composition lemmas for the `hasher.go` constructors -/

/-- Total wrapper of the registry constructor (meaningful on supported
names; used only to phrase intermediate results). -/
def newHashByNameD (a : String) : HashState :=
  newHashState ((lookupL a HasherGo.hashAlgsToNewFuncs).getD .md5)

theorem foldlM_newHasher (algs : List String)
    (acc : List (String × HashState))
    (hsup : ∀ a ∈ algs, (lookupL a HasherGo.hashAlgsToNewFuncs).isSome = true)
    (hfresh : ∀ a ∈ algs, acc.any (fun p => p.1 = a) = false)
    (hnd : algs.Nodup) :
    (algs.foldlM
      (fun m alg =>
        match lookupL alg HasherGo.hashAlgsToNewFuncs with
        | none => Except.error GoErr.unSupportedHashAlg
        | some a => Except.ok (mapSet m alg (newHashState a)))
      acc)
    = .ok (acc ++ algs.map (fun a => (a, newHashByNameD a))) := by
  induction algs generalizing acc with
  | nil => rw [List.foldlM_nil, List.map_nil, List.append_nil]; rfl
  | cons a t ih =>
      obtain ⟨x, hx⟩ :=
        Option.isSome_iff_exists.1 (hsup a (List.mem_cons_self a t))
      rw [List.foldlM_cons, hx]
      have hset : mapSet acc a (newHashState x) = acc ++ [(a, newHashState x)] := by
        rw [mapSet, if_neg]
        simp [hfresh a (List.mem_cons_self a t)]
      have hnd2 := List.nodup_cons.1 hnd
      have step : (t.foldlM
          (fun m alg =>
            match lookupL alg HasherGo.hashAlgsToNewFuncs with
            | none => Except.error GoErr.unSupportedHashAlg
            | some a => Except.ok (mapSet m alg (newHashState a)))
          (acc ++ [(a, newHashState x)]))
          = .ok ((acc ++ [(a, newHashState x)]) ++
            t.map (fun a => (a, newHashByNameD a))) := by
        refine ih _ (fun b hb => hsup b (List.mem_cons_of_mem a hb))
          (fun b hb => ?_) hnd2.2
        rw [List.any_append]
        have h1 : acc.any (fun p => p.1 = b) = false :=
          hfresh b (List.mem_cons_of_mem a hb)
        have h2 : (a = b) = False := by
          simp only [eq_iff_iff, iff_false]
          exact fun hab => hnd2.1 (hab ▸ hb)
        simp [h1, h2]
      show (Except.ok (mapSet acc a (newHashState x)) >>= fun init =>
        t.foldlM _ init) = _
      rw [show ∀ (v : List (String × HashState))
          (f : List (String × HashState) → Except GoErr (List (String × HashState))),
          (Except.ok v >>= f) = f v from fun _ _ => rfl]
      rw [hset, step, List.map_cons]
      have : newHashByNameD a = newHashState x := by
        rw [newHashByNameD, hx]
        rfl
      rw [this]
      simp

theorem newHasher_ok (algs : List String) (hnd : algs.Nodup)
    (hsup : ∀ a ∈ algs, (lookupL a HasherGo.hashAlgsToNewFuncs).isSome = true) :
    HasherGo.newHasher (some algs)
      = .ok (algs.map (fun a => (a, newHashByNameD a))) := by
  rw [HasherGo.newHasher]
  exact (foldlM_newHasher algs [] hsup (by simp) hnd).trans (by rw [List.nil_append])

theorem mapM_ok {α β : Type} (l : List α) (f : α → Except GoErr β)
    (g : α → β) (h : ∀ x ∈ l, f x = .ok (g x)) :
    l.mapM f = .ok (l.map g) := by
  induction l with
  | nil => rfl
  | cons a t ih =>
      rw [List.mapM_cons, h a (List.mem_cons_self a t),
        ih (fun x hx => h x (List.mem_cons_of_mem a hx)), List.map_cons]
      rfl

theorem lookupL_map_pair {κ β : Type} [DecidableEq κ] (f : κ → β)
    (l : List κ) (a : κ) (ha : a ∈ l) :
    lookupL a (l.map (fun x => (x, f x))) = some (f a) := by
  induction l with
  | nil => simp at ha
  | cons b t ih =>
      rw [List.map_cons, lookupL]
      by_cases hb : b = a
      · rw [if_pos hb, hb]
      · rw [if_neg hb]
        refine ih ?_
        rcases List.mem_cons.1 ha with h | h
        · exact absurd h.symm hb
        · exact h

/-- Importing the exported snapshots of a family of well-formed states
into freshly created accumulators of the same algorithms restores those
states exactly (`NewWithStates ∘ States = id` on the accumulator sets
this package builds). -/
theorem newHasherWithStates_mapped (algs : List String)
    (st : String → HashState) (hnd : algs.Nodup) (hne : algs ≠ [])
    (hsup : ∀ a ∈ algs, (lookupL a HasherGo.hashAlgsToNewFuncs).isSome = true)
    (halg : ∀ a ∈ algs, (st a).alg = (newHashByNameD a).alg)
    (hwf : ∀ a ∈ algs, WFState (st a)) :
    HasherGo.newHasherWithStates
      (some (algs.map (fun a => (a, marshalHS (st a)))))
    = .ok (algs.map (fun a => (a, st a))) := by
  rw [HasherGo.newHasherWithStates]
  have hne2 : (algs.map (fun a => (a, marshalHS (st a)))).isEmpty = false := by
    cases algs with
    | nil => exact absurd rfl hne
    | cons b t => rfl
  have hfst : (algs.map (fun a => (a, marshalHS (st a)))).map Prod.fst = algs := by
    rw [List.map_map]
    have hid : (Prod.fst ∘ fun a : String => (a, marshalHS (st a))) = id := rfl
    rw [hid, List.map_id]
  rw [hne2]
  simp only [Bool.false_eq_true, if_false]
  rw [hfst, newHasher_ok algs hnd hsup]
  show ((algs.map (fun a => (a, newHashByNameD a))).mapM _ : Except GoErr _) = _
  refine (mapM_ok _ _ (fun p => (p.1, st p.1)) ?_).trans ?_
  · intro p hp
    obtain ⟨a, ha, rfl⟩ := List.mem_map.1 hp
    have hlook : lookupL a (algs.map (fun a => (a, marshalHS (st a))))
        = some (marshalHS (st a)) :=
      lookupL_map_pair (fun a => marshalHS (st a)) algs a ha
    show (do
      let s ← unmarshalHS (newHashByNameD a).alg
        ((lookupL a (algs.map (fun a => (a, marshalHS (st a))))).getD [])
      pure (a, s) : Except GoErr _) = _
    rw [hlook]
    show (do
      let s ← unmarshalHS (newHashByNameD a).alg (marshalHS (st a))
      pure (a, s) : Except GoErr _) = _
    rw [← halg a ha, unmarshalHS_marshalHS (hwf a ha)]
    rfl
  · rw [List.map_map]
    rfl

theorem mem_supported_isSome {a : String}
    (h : a ∈ HasherGo.SupportedHashAlgs) :
    (lookupL a HasherGo.hashAlgsToNewFuncs).isSome = true := by
  simp only [HasherGo.SupportedHashAlgs, List.mem_cons,
    List.not_mem_nil, or_false] at h
  rcases h with rfl | rfl | rfl | rfl | rfl <;> rfl

/-- The split-and-resume pipeline of the `hasher.go` API (the scenario
of claim C1): create accumulators for `algs`, hash the first `k` bytes
of `S`, export every state with `States` / `MarshalBinary`, import the
blobs into fresh accumulators with `NewWithStates` / `UnmarshalBinary`,
hash the remaining suffix, and read the digests. -/
def HasherGo.resumeDigests (algs : List String) (S : List Nat) (k : Nat) :
    Except GoErr (List (String × List Nat)) :=
  match HasherGo.newHasher (some algs) with
  | .error e => .error e
  | .ok h =>
      match HasherGo.States (HasherGo.writeHasher h (S.take k)) with
      | .error e => .error e
      | .ok sts =>
          match HasherGo.newHasherWithStates (some sts) with
          | .error e => .error e
          | .ok h2 => .ok (HasherGo.Checksums (HasherGo.writeHasher h2 (S.drop k)))

/-- Hashing `S` in one unbroken pass over the same accumulators. -/
def HasherGo.onePassDigests (algs : List String) (S : List Nat) :
    Except GoErr (List (String × List Nat)) :=
  match HasherGo.newHasher (some algs) with
  | .error e => .error e
  | .ok h => .ok (HasherGo.Checksums (HasherGo.writeHasher h S))

theorem resume_eq_onePass (algs : List String) (S : List Nat) (k : Nat)
    (hnd : algs.Nodup) (hne : algs ≠ [])
    (hsup : ∀ a ∈ algs, (lookupL a HasherGo.hashAlgsToNewFuncs).isSome = true) :
    HasherGo.resumeDigests algs S k = HasherGo.onePassDigests algs S := by
  rw [HasherGo.resumeDigests, HasherGo.onePassDigests,
    newHasher_ok algs hnd hsup]
  dsimp only
  have hw1 : HasherGo.writeHasher (algs.map (fun a => (a, newHashByNameD a)))
      (S.take k)
      = algs.map (fun a => (a, writeHS (newHashByNameD a) (S.take k))) := by
    rw [HasherGo.writeHasher, List.map_map]
    rfl
  rw [hw1, HasherGo.States]
  dsimp only
  have hsts : (algs.map
        (fun a => (a, writeHS (newHashByNameD a) (S.take k)))).map
      (fun p => (p.1, marshalHS p.2))
      = algs.map
        (fun a => (a, marshalHS (writeHS (newHashByNameD a) (S.take k)))) := by
    rw [List.map_map]
    rfl
  rw [hsts, newHasherWithStates_mapped algs
    (fun a => writeHS (newHashByNameD a) (S.take k)) hnd hne hsup
    (fun a _ => writeHS_alg _ _)
    (fun a _ => writeHS_wf _ (newHashState_wf _))]
  dsimp only
  rw [HasherGo.Checksums, HasherGo.Checksums, HasherGo.writeHasher,
    HasherGo.writeHasher, List.map_map, List.map_map, List.map_map,
    List.map_map]
  congr 1
  refine List.map_congr_left (fun a _ => ?_)
  show (a, sumHS (writeHS (writeHS (newHashByNameD a) (S.take k)) (S.drop k)))
    = (a, sumHS (writeHS (newHashByNameD a) S))
  rw [writeHS_append, List.take_append_drop]

/-! ## Lookup lemmas for `Hasher.Match` -/

theorem lookupL_append {κ β : Type} [DecidableEq κ] (k : κ)
    (m1 m2 : List (κ × β)) :
    lookupL k (m1 ++ m2)
      = match lookupL k m1 with
        | some v => some v
        | none => lookupL k m2 := by
  induction m1 with
  | nil => rfl
  | cons p t ih =>
      rw [List.cons_append, lookupL, lookupL]
      by_cases hp : p.1 = k
      · rw [if_pos hp, if_pos hp]
      · rw [if_neg hp, if_neg hp, ih]

theorem any_false_lookupL_none {κ β : Type} [DecidableEq κ] (k : κ)
    {m : List (κ × β)} (h : m.any (fun p => p.1 = k) = false) :
    lookupL k m = none := by
  induction m with
  | nil => rfl
  | cons p t ih =>
      rw [List.any_cons, Bool.or_eq_false_iff] at h
      rw [lookupL, if_neg (by simpa using h.1)]
      exact ih h.2

theorem lookupL_overwrite {κ β : Type} [DecidableEq κ] (k : κ) (v : β)
    (m : List (κ × β)) :
    lookupL k (m.map (fun p => if p.1 = k then (k, v) else p))
      = if m.any (fun p => p.1 = k) then some v else none := by
  induction m with
  | nil => rfl
  | cons p t ih =>
      rw [List.map_cons, List.any_cons]
      by_cases hp : p.1 = k
      · rw [if_pos hp, lookupL, if_pos rfl, hp]
        simp
      · rw [if_neg hp, lookupL, if_neg hp, ih, decide_eq_false hp,
          Bool.false_or]

theorem lookupL_map_overwrite_other {κ β : Type} [DecidableEq κ]
    {k k' : κ} (hne : k' ≠ k) (v : β) (m : List (κ × β)) :
    lookupL k' (m.map (fun p => if p.1 = k then (k, v) else p))
      = lookupL k' m := by
  induction m with
  | nil => rfl
  | cons p t ih =>
      rw [List.map_cons]
      by_cases hp : p.1 = k
      · rw [if_pos hp, lookupL, lookupL,
          if_neg (show ¬(k = k') from fun h => hne h.symm),
          if_neg (show ¬(p.1 = k') from fun h => hne (hp.symm.trans h).symm), ih]
      · rw [if_neg hp, lookupL, lookupL]
        by_cases hp' : p.1 = k'
        · rw [if_pos hp', if_pos hp']
        · rw [if_neg hp', if_neg hp', ih]

theorem lookupL_mapSet_self {κ β : Type} [DecidableEq κ] (m : List (κ × β))
    (k : κ) (v : β) : lookupL k (mapSet m k v) = some v := by
  rw [mapSet]
  by_cases hm : m.any (fun p => p.1 = k)
  · rw [if_pos hm, lookupL_overwrite, if_pos hm]
  · rw [if_neg hm, lookupL_append,
      any_false_lookupL_none k (Bool.eq_false_iff.mpr hm), lookupL, if_pos rfl]

theorem lookupL_mapSet_other {κ β : Type} [DecidableEq κ] (m : List (κ × β))
    {k k' : κ} (v : β) (hne : k' ≠ k) :
    lookupL k' (mapSet m k v) = lookupL k' m := by
  rw [mapSet]
  by_cases hm : m.any (fun p => p.1 = k)
  · rw [if_pos hm, lookupL_map_overwrite_other hne]
  · rw [if_neg hm, lookupL_append]
    have h1 : lookupL k' [(k, v)] = none := by
      rw [lookupL, if_neg (show ¬(k = k') from fun h => hne h.symm)]
      rfl
    rw [h1]
    cases lookupL k' m <;> rfl

/-- Characterization of the checksum-to-algorithm map `Match` builds:
a successful lookup names an algorithm whose digest hex-encodes to the
key, and a failed lookup means no accumulator's digest does. -/
theorem lookupL_foldHex (l : List (String × HashState))
    (acc : List (List Char × String)) (c : List Char) :
    (∀ alg, lookupL c
        (l.foldl (fun acc p => mapSet acc (HasherGo.hexEncode (sumHS p.2)) p.1)
          acc) = some alg →
      (∃ st, (alg, st) ∈ l ∧ HasherGo.hexEncode (sumHS st) = c) ∨
        lookupL c acc = some alg)
    ∧ (lookupL c
        (l.foldl (fun acc p => mapSet acc (HasherGo.hexEncode (sumHS p.2)) p.1)
          acc) = none →
      (∀ p ∈ l, HasherGo.hexEncode (sumHS p.2) ≠ c) ∧ lookupL c acc = none) := by
  induction l generalizing acc with
  | nil =>
      exact ⟨fun alg h => Or.inr h, fun h => ⟨by simp, h⟩⟩
  | cons p t ih =>
      rw [List.foldl_cons]
      constructor
      · intro alg h
        rcases (ih _).1 alg h with ⟨st, hmem, hhex⟩ | h2
        · exact Or.inl ⟨st, List.mem_cons_of_mem p hmem, hhex⟩
        · by_cases hc : HasherGo.hexEncode (sumHS p.2) = c
          · rw [← hc, lookupL_mapSet_self] at h2
            obtain rfl : p.1 = alg := by injection h2
            exact Or.inl ⟨p.2, List.mem_cons_self p t, hc⟩
          · rw [lookupL_mapSet_other _ _ (fun he => hc he.symm)] at h2
            exact Or.inr h2
      · intro h
        obtain ⟨hall, hacc⟩ := (ih _).2 h
        have hcne : HasherGo.hexEncode (sumHS p.2) ≠ c := by
          intro hc
          rw [← hc, lookupL_mapSet_self] at hacc
          exact Option.noConfusion hacc
        refine ⟨fun q hq => ?_, ?_⟩
        · rcases List.mem_cons.1 hq with rfl | hq'
          · exact hcne
          · exact hall q hq'
        · rw [lookupL_mapSet_other _ _ (fun he => hcne he.symm)] at hacc
          exact hacc

/-! Hex strings are already lower-case. -/

theorem toLower_hexDigit (n : Nat) :
    (HasherGo.hexDigits.getD n '0').toLower = HasherGo.hexDigits.getD n '0' := by
  rcases Nat.lt_or_ge n 16 with h | h
  · interval_cases n <;> decide
  · rw [List.getD_eq_default]
    · decide
    · have h16 : HasherGo.hexDigits.length = 16 := by decide
      omega

theorem toLowerStr_hexEncode (bs : List Nat) :
    HasherGo.toLowerStr (HasherGo.hexEncode bs) = HasherGo.hexEncode bs := by
  induction bs with
  | nil => rfl
  | cons b t ih =>
      rw [HasherGo.hexEncode, List.flatMap_cons, HasherGo.toLowerStr,
        List.map_append]
      rw [HasherGo.hexEncode, HasherGo.toLowerStr] at ih
      rw [ih]
      simp only [List.map_cons, List.map_nil, toLower_hexDigit]

/-! ## Key-set lemmas for `loadStates` and name resolution -/

theorem lookupL_isSome_mem {κ β : Type} [DecidableEq κ] {k : κ}
    {m : List (κ × β)} (h : (lookupL k m).isSome = true) :
    k ∈ m.map Prod.fst := by
  induction m with
  | nil => rw [lookupL] at h; exact absurd h (by simp)
  | cons p t ih =>
      rw [lookupL] at h
      rw [List.map_cons]
      by_cases hp : p.1 = k
      · exact List.mem_cons.2 (Or.inl hp.symm)
      · rw [if_neg hp] at h
        exact List.mem_cons.2 (Or.inr (ih h))

/-- Calling `loadStates` with a non-nil state map whose key set is not a
permutation of the accumulator names always fails with
`ErrUnmatchedHashFuncsAndStates`: either the sizes differ, or some
accumulator name has no saved state. -/
theorem loadStates_mismatch (hashes : List (String × HashState))
    (m : List (String × List Nat))
    (hnd1 : (hashes.map Prod.fst).Nodup)
    (hperm : ¬ (hashes.map Prod.fst).Perm (m.map Prod.fst)) :
    Engine.loadStates hashes (some m)
      = .error .unmatchedHashFuncsAndStates := by
  rw [Engine.loadStates]
  by_cases hlen : hashes.length ≠ m.length
  · rw [if_pos hlen]
  · rw [if_neg hlen]
    have hleneq : hashes.length = m.length := not_not.1 hlen
    by_cases hall : hashes.all (fun p => (lookupL p.1 m).isSome) = true
    · exfalso
      apply hperm
      have hsub : (hashes.map Prod.fst) ⊆ (m.map Prod.fst) := by
        intro a ha
        obtain ⟨p, hp, rfl⟩ := List.mem_map.1 ha
        exact lookupL_isSome_mem (List.all_eq_true.1 hall p hp)
      exact (hnd1.subperm hsub).perm_of_length_le
        (by rw [List.length_map, List.length_map, hleneq])
    · rw [if_neg hall]

/-- A name resolves in the `part_001` registry exactly when it is one of
the five canonical upper-case spellings. -/
theorem getHashByName_ok_iff (s : String) :
    (∃ h, Engine.GetHashByName s = .ok h) ↔ s ∈ Engine.AvailableHashFuncs := by
  rw [Engine.GetHashByName, Engine.AvailableHashFuncs]
  split_ifs with h1 h2 h3 h4 h5 <;> simp_all

/-- Same for the `hasher.go` registry lookup. -/
theorem lookupL_table_isSome_iff (s : String) :
    (lookupL s HasherGo.hashAlgsToNewFuncs).isSome = true
      ↔ s ∈ HasherGo.SupportedHashAlgs := by
  rw [HasherGo.hashAlgsToNewFuncs, HasherGo.SupportedHashAlgs]
  simp only [lookupL]
  split_ifs with h1 h2 h3 h4 h5 <;> simp_all [eq_comm]

/-! The claims -/

theorem engineNew_hashFuncs (hf : Option (List String)) (b : Int) :
    (Engine.New hf b).hashFuncs = hf := rfl

/-- C1. For every supported algorithm set (per the data model an
algorithm set is non-empty and its identifiers are distinct), every byte
string `S`, and every split point `k` with `0 ≤ k ≤ len S` (`k = 0` and
`k = len S` included), hashing the first `k` bytes, exporting every
accumulator's state (`States` / `MarshalBinary`), importing the blobs
into freshly created accumulators of the same algorithms
(`NewWithStates` / `UnmarshalBinary`), and hashing the remaining suffix
`S[k:]` yields exactly the digests of hashing all of `S` in one unbroken
pass. -/
theorem c1_split_resume_round_trip (algs : List String) (S : List Nat)
    (k : Nat) (hsup : ∀ a ∈ algs, a ∈ HasherGo.SupportedHashAlgs)
    (hnd : algs.Nodup) (hne : algs ≠ [])
    (hbytes : ∀ b ∈ S, b < 256) (hk : k ≤ S.length) :
    HasherGo.resumeDigests algs S k = HasherGo.onePassDigests algs S :=
  resume_eq_onePass algs S k hnd hne
    (fun a ha => (lookupL_table_isSome_iff a).2 (hsup a ha))

theorem c1_split_resume_round_trip_witness :
    (∀ a ∈ ["MD5", "SHA-256", "CRC-32"], a ∈ HasherGo.SupportedHashAlgs)
    ∧ (["MD5", "SHA-256", "CRC-32"] : List String).Nodup
    ∧ (["MD5", "SHA-256", "CRC-32"] : List String) ≠ []
    ∧ (∀ b ∈ ([1, 2, 3, 4, 5] : List Nat), b < 256)
    ∧ 2 ≤ ([1, 2, 3, 4, 5] : List Nat).length
    ∧ HasherGo.resumeDigests ["MD5", "SHA-256", "CRC-32"] [1, 2, 3, 4, 5] 2
      = HasherGo.onePassDigests ["MD5", "SHA-256", "CRC-32"] [1, 2, 3, 4, 5] :=
  ⟨by decide, by decide, by decide, by decide, by decide,
    c1_split_resume_round_trip ["MD5", "SHA-256", "CRC-32"] [1, 2, 3, 4, 5] 2
      (by decide) (by decide) (by decide) (by decide) (by decide)⟩

/-- C2. Every run started by `Hasher.Start` (`part_001`) produces
exactly one terminal event (OK, Stop, or Error), preceded only by
non-terminal `computedEvent` progress reports; nothing follows the
terminal event, and the list ending models the deferred `close(ch)`
that lets the consumer detect exhaustion. -/
theorem c2_exactly_one_terminal_event (hashFuncs : Option (List String))
    (bufferSize : Int) (r : Engine.RdrSt)
    (states : Option (List (String × List Nat)))
    (cancel tick : Nat → Bool) (hasTicker : Bool) :
    ∃ pre t,
      Engine.Start (Engine.New hashFuncs bufferSize) r states cancel tick
          hasTicker
        = pre ++ [t] ∧ Engine.isTerminal t = true ∧
        ∀ e ∈ pre, Engine.isTerminal e = false := by
  cases hg : Engine.getHashesAndWriter hashFuncs with
  | error e =>
      refine ⟨[], .errorEv e, ?_, rfl, by simp⟩
      simp [Engine.Start, engineNew_hashFuncs, hg]
  | ok hashes =>
      cases hl : Engine.loadStates hashes states with
      | error e =>
          refine ⟨[], .errorEv e, ?_, rfl, by simp⟩
          simp [Engine.Start, engineNew_hashFuncs, hg, hl]
      | ok hashes2 =>
          obtain ⟨pre, t, he, ht, hp⟩ :=
            runLoop_term cancel tick hasTicker hashes2 r 0 0
          refine ⟨pre, t, ?_, ht, hp⟩
          rw [← he]
          simp [Engine.Start, engineNew_hashFuncs, hg, hl]

/-- C3. Whenever the engine observes the cancellation signal — which,
`io.CopyBuffer` consuming the whole source in one iteration, can only
happen at the poll of iteration 0 (zero bytes hashed) or of iteration 1
(the whole source hashed) — it exports the state of every accumulator
(`outputStates`, never skipped, also when zero bytes were processed
since creation or import) and emits exactly one Stop event carrying the
bytes-processed count (the summed lengths of the completed copies;
nothing in flight is dropped) and the exported states, and nothing after
it. -/
theorem c3_cancellation_exports_state (hashFuncs : Option (List String))
    (bufferSize : Int) (r : Engine.RdrSt)
    (states : Option (List (String × List Nat)))
    (cancel tick : Nat → Bool) (hasTicker : Bool)
    (hashes hashes2 : List (String × HashState))
    (h1 : Engine.getHashesAndWriter hashFuncs = .ok hashes)
    (h2 : Engine.loadStates hashes states = .ok hashes2) :
    (cancel 0 = true →
      Engine.Start (Engine.New hashFuncs bufferSize) r states cancel tick
          hasTicker
        = (if hasTicker && tick 0 then [.computedEv 0] else []) ++
          [.stopEv 0 (hashes2.map (fun p => (p.1, marshalHS p.2)))])
    ∧ (cancel 0 = false → r.err = none → r.data ≠ [] → cancel 1 = true →
      Engine.Start (Engine.New hashFuncs bufferSize) r states cancel tick
          hasTicker
        = (if hasTicker && tick 0 then [.computedEv 0] else []) ++
          ((if hasTicker && tick 1 then [.computedEv r.data.length] else [])
            ++ [.stopEv r.data.length
              ((hashes2.map (fun p => (p.1, writeHS p.2 r.data))).map
                (fun p => (p.1, marshalHS p.2)))])) := by
  constructor
  · intro hc0
    simp only [Engine.Start, engineNew_hashFuncs, h1, h2]
    rw [show r.data.length + 2 = r.data.length + 1 + 1 from rfl,
      Engine.runLoop]
    simp [hc0, Engine.outputStates]
  · intro hc0 herr hne hc1
    simp only [Engine.Start, engineNew_hashFuncs, h1, h2]
    rw [show r.data.length + 2 = r.data.length + 1 + 1 from rfl,
      Engine.runLoop]
    simp only [hc0, Bool.false_eq_true, if_false, herr]
    have hlen : ¬ r.data.length = 0 := by
      simpa [List.length_eq_zero] using hne
    simp only [hlen, if_false]
    rw [Engine.runLoop]
    simp [hc1, Engine.outputStates]

theorem c3_cancellation_exports_state_witness :
    Engine.getHashesAndWriter (some ["SHA-1"])
      = .ok [("SHA-1", newHashState .sha1)]
    ∧ Engine.loadStates [("SHA-1", newHashState .sha1)] none
      = .ok [("SHA-1", newHashState .sha1)]
    ∧ (((fun i => decide (1 ≤ i)) : Nat → Bool) 0 = false)
    ∧ Engine.Start (Engine.New (some ["SHA-1"]) 0) ⟨[7, 7, 7], none⟩ none
        (fun i => decide (1 ≤ i)) (fun _ => false) false
      = [.stopEv 3 [("SHA-1",
          marshalHS (writeHS (newHashState .sha1) [7, 7, 7]))]] := by
  refine ⟨rfl, rfl, rfl, ?_⟩
  have h := (c3_cancellation_exports_state (some ["SHA-1"]) 0 ⟨[7, 7, 7], none⟩
    none (fun i => decide (1 ≤ i)) (fun _ => false) false
    [("SHA-1", newHashState .sha1)] [("SHA-1", newHashState .sha1)]
    rfl rfl).2 rfl rfl (by decide) rfl
  simpa using h

/-- C4 counterexample. The claim says configuration errors are
surfaced synchronously at construction time and never delivered as an
Error event.  In the engine generation (`part_001`) `New` cannot fail;
starting a run configured with an empty algorithm list delivers the
configuration error `ErrNoHashFunc` as an `ErrorEvent` on the event
channel, refuting the claim as stated. -/
theorem c4_counterexample :
    Engine.Start (Engine.New (some []) 0) ⟨[], none⟩ none
      (fun _ => false) (fun _ => false) false
      = [.errorEv .noHashFunc] := rfl

/-- C4 amended. The `hasher.go` constructors do surface
configuration errors synchronously (`ErrUnSupportedHashAlg`,
`ErrNoStates`); the engine generation instead reports every
configuration error (no/unsupported hash function, and, per C8,
mismatched states) as the run's single terminal Error event on the
channel, before any bytes are processed — its `New` never fails. -/
theorem c4_amended_config_errors (hashFuncs : Option (List String))
    (bufferSize : Int) (r : Engine.RdrSt)
    (states : Option (List (String × List Nat)))
    (cancel tick : Nat → Bool) (hasTicker : Bool) (e : GoErr)
    (h : Engine.getHashesAndWriter hashFuncs = .error e) :
    Engine.Start (Engine.New hashFuncs bufferSize) r states cancel tick
        hasTicker
      = [.errorEv e]
    ∧ HasherGo.newHasher (some ["SHA-3"]) = .error .unSupportedHashAlg
    ∧ HasherGo.newHasherWithStates none = .error .noStates := by
  refine ⟨?_, rfl, rfl⟩
  simp only [Engine.Start, engineNew_hashFuncs, h]

theorem c4_amended_config_errors_witness :
    Engine.getHashesAndWriter (some ["SHA-3"])
      = .error .unSupportedHashFunc
    ∧ Engine.Start (Engine.New (some ["SHA-3"]) 0) ⟨[1], none⟩ none
        (fun _ => false) (fun _ => false) false
      = [.errorEv .unSupportedHashFunc] :=
  ⟨rfl, (c4_amended_config_errors (some ["SHA-3"]) 0 ⟨[1], none⟩ none
    (fun _ => false) (fun _ => false) false .unSupportedHashFunc rfl).1⟩

/-- Projection selecting Stop events and their byte counts (for C5). -/
def stopComputed : Engine.EngineEvent → Option Nat
  | .stopEv c _ => some c
  | _ => none

/-- C5 (claim: at most one buffer-sized chunk is hashed between two
consecutive cancellation polls).  The code calls `io.CopyBuffer`, which
copies until end-of-stream, so one loop iteration hashes the whole
remaining source regardless of `bufferSize`: with `bufferSize = 4`, a
10-byte source and cancellation first observed at the second poll, the
run stops having hashed all 10 > 4 bytes between the two polls. -/
theorem c5_whole_stream_between_polls :
    (Engine.New (some ["MD5"]) 4).bufferSize = 4
    ∧ ((Engine.Start (Engine.New (some ["MD5"]) 4)
        ⟨[0, 1, 2, 3, 4, 5, 6, 7, 8, 9], none⟩ none
        (fun i => decide (1 ≤ i)) (fun _ => false) false).map stopComputed)
      = [some 10]
    ∧ 4 < 10 :=
  ⟨rfl, rfl, by norm_num⟩

/-- C6 counterexample. The claim says creating a hasher with an
empty algorithm set fails with `ErrNoHashFunc`/equivalent and no hasher
is constructed.  The `hasher.go` constructor accepts an explicit empty
list and returns a hasher with no accumulators and no error. -/
theorem c6_counterexample : HasherGo.newHasher (some []) = .ok [] := rfl

/-- C6 amended. Only the engine generation rejects an empty
algorithm set: `getHashesAndWriter` fails with `ErrNoHashFunc` on a nil
or empty list (from inside `Start`, per C4).  The `hasher.go`
constructor does not: a nil list silently defaults to all five supported
algorithms and an explicit empty list constructs an accumulator-less
hasher without error. -/
theorem c6_amended_empty_algorithms :
    Engine.getHashesAndWriter none = .error .noHashFunc
    ∧ Engine.getHashesAndWriter (some []) = .error .noHashFunc
    ∧ HasherGo.newHasher (some []) = .ok []
    ∧ HasherGo.newHasher none
      = HasherGo.newHasher (some HasherGo.SupportedHashAlgs) :=
  ⟨rfl, rfl, rfl, rfl⟩

/-- C7 counterexample. The claim says restoring from an empty or
absent state mapping fails with `ErrNoStates`.  For an empty (non-nil)
mapping the key collection stays nil, `newHasher` falls back to all
supported algorithms, and the first `UnmarshalBinary` of an absent blob
fails — so construction fails with a state-unmarshal error, not
`ErrNoStates`.  (Go's random map order decides which algorithm's
unmarshal error surfaces — CRC-32 in this model's fixed order — but
every order yields an unmarshal error.) -/
theorem c7_counterexample :
    HasherGo.newHasherWithStates (some []) = .error (.invalidStateId .crc32)
    ∧ GoErr.invalidStateId .crc32 ≠ GoErr.noStates :=
  ⟨rfl, by decide⟩

/-- C7 amended. Restoring from an absent (`nil`) mapping fails with
`ErrNoStates`; restoring from an empty non-nil mapping also constructs
no hasher, but fails with an `UnmarshalBinary` error ("invalid hash
state identifier") rather than `ErrNoStates`. -/
theorem c7_amended_empty_states :
    HasherGo.newHasherWithStates none = .error .noStates
    ∧ HasherGo.newHasherWithStates (some []) = .error (.invalidStateId .crc32) :=
  ⟨rfl, rfl⟩

/-- C8. Restoring (`loadStates`) from a state mapping whose key set
does not exactly equal the active algorithm names (distinct, per the
accumulator-set invariant) fails with `ErrUnmatchedHashFuncsAndStates`;
through `Start` the failure is the run's single event, emitted before any
byte is read or hashed — no silent partial resume. -/
theorem c8_state_key_mismatch (hashes : List (String × HashState))
    (m : List (String × List Nat))
    (hnd1 : (hashes.map Prod.fst).Nodup)
    (hperm : ¬ (hashes.map Prod.fst).Perm (m.map Prod.fst)) :
    Engine.loadStates hashes (some m) = .error .unmatchedHashFuncsAndStates
    ∧ ∀ (hashFuncs : Option (List String)) (bufferSize : Int)
        (r : Engine.RdrSt) (cancel tick : Nat → Bool) (hasTicker : Bool),
        Engine.getHashesAndWriter hashFuncs = .ok hashes →
        Engine.Start (Engine.New hashFuncs bufferSize) r (some m) cancel tick
            hasTicker
          = [.errorEv .unmatchedHashFuncsAndStates] := by
  have hmm := loadStates_mismatch hashes m hnd1 hperm
  refine ⟨hmm, fun hf bs r cancel tick ht hg => ?_⟩
  simp [Engine.Start, engineNew_hashFuncs, hg, hmm]

theorem c8_state_key_mismatch_witness :
    ((([("MD5", newHashState .md5)] : List (String × HashState)).map
        Prod.fst).Nodup)
    ∧ ¬ ((([("MD5", newHashState .md5)] : List (String × HashState)).map
        Prod.fst).Perm
          (([("SHA-1", ([] : List Nat))] : List (String × List Nat)).map
            Prod.fst))
    ∧ Engine.loadStates [("MD5", newHashState .md5)] (some [("SHA-1", [])])
      = .error .unmatchedHashFuncsAndStates :=
  ⟨by decide, by decide,
    (c8_state_key_mismatch [("MD5", newHashState .md5)] [("SHA-1", [])]
      (by decide) (by decide)).1⟩

/-- Go `strings.ToUpper` restricted to the characters occurring here
(for stating C9). -/
def toUpperStr (cs : List Char) : List Char := cs.map Char.toUpper

/-- C9 counterexample. The claim says identifiers are matched
case-insensitively (canonicalized upper-case): any string whose
upper-case form is in the closed set should resolve.  "md5" upper-cases
to "MD5", a member of the set, yet fails to resolve in both
generations. -/
theorem c9_counterexample :
    toUpperStr "md5".toList = "MD5".toList
    ∧ "MD5" ∈ Engine.AvailableHashFuncs
    ∧ Engine.GetHashByName "md5" = .error .unSupportedHashFunc
    ∧ HasherGo.newHasher (some ["md5"]) = .error .unSupportedHashAlg :=
  ⟨by decide, by decide, rfl, rfl⟩

theorem newHasher_single (s : String) :
    HasherGo.newHasher (some [s])
      = match lookupL s HasherGo.hashAlgsToNewFuncs with
        | none => .error .unSupportedHashAlg
        | some a => .ok [(s, newHashState a)] := by
  cases hl : lookupL s HasherGo.hashAlgsToNewFuncs with
  | none =>
      rw [HasherGo.newHasher]
      simp only [List.foldlM_cons, hl]
      rfl
  | some a =>
      rw [HasherGo.newHasher]
      simp only [List.foldlM_cons, hl]
      rfl

/-- C9 amended. Algorithm identifiers are matched exactly
(case-sensitively): a name resolves — in the engine's `GetHashByName`
switch and in the `hasher.go` registry — precisely when it is one of
the five canonical upper-case spellings; every other string, including
lower-case variants of the canonical names, fails to resolve. -/
theorem c9_amended_case_sensitive (s : String) :
    ((∃ h, Engine.GetHashByName s = .ok h) ↔ s ∈ Engine.AvailableHashFuncs)
    ∧ ((∃ h, HasherGo.newHasher (some [s]) = .ok h)
        ↔ s ∈ HasherGo.SupportedHashAlgs) := by
  refine ⟨getHashByName_ok_iff s, ?_⟩
  rw [newHasher_single]
  cases hl : lookupL s HasherGo.hashAlgsToNewFuncs with
  | none =>
      constructor
      · rintro ⟨h, hh⟩
        exact absurd hh (by simp)
      · intro hs
        have h2 := (lookupL_table_isSome_iff s).2 hs
        rw [hl] at h2
        exact absurd h2 (by simp)
  | some a =>
      constructor
      · intro _
        have h2 : (lookupL s HasherGo.hashAlgsToNewFuncs).isSome = true := by
          rw [hl]; rfl
        exact (lookupL_table_isSome_iff s).1 h2
      · intro _
        exact ⟨[(s, newHashState a)], rfl⟩

/-- C10. `Hasher.Match` succeeds exactly when the candidate
checksum, compared case-insensitively, equals the hexadecimal encoding
of the current digest of some accumulator of the hasher, in which case
the returned algorithm is such an accumulator's; otherwise it returns
`(false, "")`. -/
theorem c10_match_case_insensitive (hashes : List (String × HashState))
    (c : List Char) :
    (((HasherGo.Match hashes c).1 = true) ↔
      ∃ p ∈ hashes, HasherGo.toLowerStr c
        = HasherGo.toLowerStr (HasherGo.hexEncode (sumHS p.2)))
    ∧ ((HasherGo.Match hashes c).1 = true →
      ∃ st, ((HasherGo.Match hashes c).2, st) ∈ hashes ∧
        HasherGo.toLowerStr c
          = HasherGo.toLowerStr (HasherGo.hexEncode (sumHS st)))
    ∧ ((HasherGo.Match hashes c).1 = false →
      (HasherGo.Match hashes c).2 = "") := by
  have hfold := lookupL_foldHex hashes [] (HasherGo.toLowerStr c)
  rw [HasherGo.Match]
  cases hM : lookupL (HasherGo.toLowerStr c)
      (hashes.foldl
        (fun acc p => mapSet acc (HasherGo.hexEncode (sumHS p.2)) p.1) []) with
  | some alg =>
      simp only [hM]
      rcases hfold.1 alg hM with ⟨st, hmem, hhex⟩ | habs
      · refine ⟨⟨fun _ => ⟨(alg, st), hmem, ?_⟩, fun _ => True.intro⟩,
          fun _ => ⟨st, hmem, ?_⟩, fun hf => absurd hf (by simp)⟩
        · rw [toLowerStr_hexEncode, ← hhex]
        · rw [toLowerStr_hexEncode, ← hhex]
      · exact absurd habs (by simp [lookupL])
  | none =>
      simp only [hM]
      obtain ⟨hall, -⟩ := hfold.2 hM
      refine ⟨⟨fun hf => absurd hf (by simp), fun he => ?_⟩,
        fun hf => absurd hf (by simp), fun _ => True.intro⟩
      obtain ⟨p, hp, hc⟩ := he
      exact absurd (by rw [hc, toLowerStr_hexEncode]) (hall p hp)

theorem c10_match_case_insensitive_witness :
    (HasherGo.Match [("CRC-32", writeHS (newHashState .crc32) [1, 2])]
      (HasherGo.toLowerStr
        (HasherGo.hexEncode (sumHS (writeHS (newHashState .crc32) [1, 2]))))).1
      = true
    ∧ ∃ st, ((HasherGo.Match [("CRC-32", writeHS (newHashState .crc32) [1, 2])]
        (HasherGo.toLowerStr
          (HasherGo.hexEncode
            (sumHS (writeHS (newHashState .crc32) [1, 2]))))).2, st)
        ∈ [("CRC-32", writeHS (newHashState .crc32) [1, 2])] ∧
      HasherGo.toLowerStr
        (HasherGo.toLowerStr
          (HasherGo.hexEncode (sumHS (writeHS (newHashState .crc32) [1, 2]))))
        = HasherGo.toLowerStr (HasherGo.hexEncode (sumHS st)) :=
  ⟨by decide,
    (c10_match_case_insensitive
      [("CRC-32", writeHS (newHashState .crc32) [1, 2])]
      (HasherGo.toLowerStr
        (HasherGo.hexEncode
          (sumHS (writeHS (newHashState .crc32) [1, 2]))))).2.1 (by decide)⟩

end HasherProof
